import Mathlib

/-!
Verification of the price-table extraction core of the Docling repository
(`src/tools/docling-api/price_table_extraction.py`).

The Python code is shallowly embedded: text is `List Char`, Python floats are
modelled as `ℚ` (the cells that matter are finite decimal literals; the
non-finite literals `inf` / `nan` and digit-group underscores accepted by
Python's `float` are outside the modelled domain), `unicodedata.normalize
('NFKD', ·)` is modelled by a per-character decomposition table restricted to
the Latin repertoire of the documents this code handles (accented vowels,
n-tilde, c-cedilla, ordinal indicators; every other character decomposes to
itself), and the concrete regular expressions of the source are embedded as
token lists interpreted by a backtracking matcher with Python's
leftmost-match search semantics.  All functions are total; the `try/except`
of `parse_table_to_columns` (whose body cannot raise) and the top-level
function's freedom from exceptions are modelled by totality.
-/

set_option maxRecDepth 100000

namespace Docling

/-- Text is a list of characters. -/
abbrev Str := List Char

/-- Whitespace for Python's `str.strip` and the regex class `\s`. -/
def isPyWS (c : Char) : Bool :=
  c = ' ' ∨ c = '\t' ∨ c = '\n' ∨ c = '\r' ∨ c = '\x0b' ∨ c = '\x0c' ∨
  c = '\x85' ∨ c = '\xa0'

/-- Space or tab, the class collapsed by `normalize_text`'s `re.sub("[ \t]+", " ")`. -/
def isSpTab (c : Char) : Bool := c = ' ' ∨ c = '\t'

/-- Decimal digit, the regex class `\d`. -/
def isDigitCh (c : Char) : Bool := '0' ≤ c ∧ c ≤ '9'

/-- Combining marks removed by `strip_accents` (the combining diacritical block). -/
def isCombiningMark (c : Char) : Bool := 0x300 ≤ c.toNat ∧ c.toNat ≤ 0x36F

/-- NFKD decompositions for the Latin repertoire handled by the documents;
models `unicodedata.normalize('NFKD', ·)` character by character. -/
def accentTable : List (Char × List Char) :=
  [('á', ['a', '́']), ('à', ['a', '̀']), ('â', ['a', '̂']),
   ('ä', ['a', '̈']), ('ã', ['a', '̃']),
   ('é', ['e', '́']), ('è', ['e', '̀']), ('ê', ['e', '̂']),
   ('ë', ['e', '̈']),
   ('í', ['i', '́']), ('ì', ['i', '̀']), ('î', ['i', '̂']),
   ('ï', ['i', '̈']),
   ('ó', ['o', '́']), ('ò', ['o', '̀']), ('ô', ['o', '̂']),
   ('ö', ['o', '̈']), ('õ', ['o', '̃']),
   ('ú', ['u', '́']), ('ù', ['u', '̀']), ('û', ['u', '̂']),
   ('ü', ['u', '̈']),
   ('ñ', ['n', '̃']), ('ç', ['c', '̧']),
   ('Á', ['A', '́']), ('À', ['A', '̀']), ('Â', ['A', '̂']),
   ('Ä', ['A', '̈']), ('Ã', ['A', '̃']),
   ('É', ['E', '́']), ('È', ['E', '̀']), ('Ê', ['E', '̂']),
   ('Ë', ['E', '̈']),
   ('Í', ['I', '́']), ('Ì', ['I', '̀']), ('Î', ['I', '̂']),
   ('Ï', ['I', '̈']),
   ('Ó', ['O', '́']), ('Ò', ['O', '̀']), ('Ô', ['O', '̂']),
   ('Ö', ['O', '̈']), ('Õ', ['O', '̃']),
   ('Ú', ['U', '́']), ('Ù', ['U', '̀']), ('Û', ['U', '̂']),
   ('Ü', ['U', '̈']),
   ('Ñ', ['N', '̃']), ('Ç', ['C', '̧']),
   ('º', ['o']), ('ª', ['a'])]

/-- One character's NFKD decomposition. -/
def decompChar (c : Char) : Str :=
  match List.lookup c accentTable with
  | some l => l
  | none => [c]

/-- The `strip_accents` helper: NFKD-decompose, then drop combining marks. -/
def stripAccents (s : Str) : Str :=
  (s.flatMap decompChar).filter (fun c => ¬ isCombiningMark c)

/-- ASCII lowercase table for Python's `str.lower` on the post-decomposition
repertoire. -/
def lowerTable : List (Char × Char) :=
  [('A', 'a'), ('B', 'b'), ('C', 'c'), ('D', 'd'), ('E', 'e'), ('F', 'f'),
   ('G', 'g'), ('H', 'h'), ('I', 'i'), ('J', 'j'), ('K', 'k'), ('L', 'l'),
   ('M', 'm'), ('N', 'n'), ('O', 'o'), ('P', 'p'), ('Q', 'q'), ('R', 'r'),
   ('S', 's'), ('T', 't'), ('U', 'u'), ('V', 'v'), ('W', 'w'), ('X', 'x'),
   ('Y', 'y'), ('Z', 'z')]

/-- Lowercase one character. -/
def lowerChar (c : Char) : Char := (List.lookup c lowerTable).getD c

/-- `p` is a prefix of `s`. -/
def pfx : Str → Str → Bool
  | [], _ => true
  | _ :: _, [] => false
  | a :: p, b :: s => a = b && pfx p s

/-- `p` occurs as a contiguous substring of `s` (Python's `p in s`). -/
def occurs (p : Str) : Str → Bool
  | [] => pfx p []
  | c :: s => pfx p (c :: s) || occurs p s

/-- Worker for `replaceAll`: while `skip > 0`, characters already consumed by
an emitted replacement are dropped; at `skip = 0` the scan looks for the next
occurrence of the pattern. -/
def repAux (p r : Str) : ℕ → Str → Str
  | 0, [] => []
  | _ + 1, [] => []
  | skip + 1, _ :: s => repAux p r skip s
  | 0, c :: s =>
    if pfx p (c :: s) then r ++ repAux p r (p.length - 1) s
    else c :: repAux p r 0 s

/-- Python's `str.replace` for a nonempty pattern: replace every occurrence,
scanning left to right, non-overlapping (for the empty pattern, which the
source never replaces, the model inserts `r` before every character). -/
def replaceAll (p r s : Str) : Str := repAux p r 0 s

/-- The next character exists and is a space or tab. -/
def headSpTab : Str → Bool
  | d :: _ => isSpTab d
  | [] => false

/-- `re.sub(r"[ \t]+", " ", s)`: collapse each run of spaces/tabs to one
space (the single space is emitted at the last character of each run). -/
def collapseWS : Str → Str
  | [] => []
  | c :: s =>
    if isSpTab c then
      if headSpTab s then collapseWS s
      else ' ' :: collapseWS s
    else c :: collapseWS s

/-- The `normalize_text` helper of the source: strip accents, lowercase,
normalize newlines, unify punctuation variants, collapse spaces/tabs. -/
def normalizeText (s : Str) : Str :=
  collapseWS
    (replaceAll ['k', 'w', 'h'] ['k', 'w', 'h']
      (replaceAll ['k', ' ', 'w'] ['k', 'w']
        (replaceAll ['c', '€', ' ', '/'] ['c', '€', '/']
          (replaceAll ['€', ' ', '/'] ['€', '/']
            (replaceAll ['\r'] ['\n']
              (replaceAll ['\r', '\n'] ['\n']
                ((stripAccents s).map lowerChar)))))))

/-- Drop a run satisfying `f` from the end. -/
def dropEndWhile (f : Char → Bool) (s : Str) : Str :=
  ((s.reverse).dropWhile f).reverse

/-- Strip characters satisfying `f` from both ends (Python's `str.strip(...)`). -/
def trimWith (f : Char → Bool) (s : Str) : Str :=
  dropEndWhile f (s.dropWhile f)

/-- Python's `str.strip()` (whitespace). -/
def pyStrip (s : Str) : Str := trimWith isPyWS s

/-- Numeric value of a digit string. -/
def natVal (ds : Str) : ℕ := ds.foldl (fun a c => 10 * a + (c.toNat - 48)) 0

/-- An exact rational in lowest terms, modelling the finite Python floats the
cells produce (every value is built through `mkQ`, so structural equality is
numeric equality). -/
structure Q where
  n : ℤ
  d : ℕ
deriving DecidableEq

/-- Build a `Q` in lowest terms from a numerator and a positive denominator. -/
def mkQ (n : ℤ) (d : ℕ) : Q :=
  let g := Nat.gcd n.natAbs d
  ⟨n / (g : ℤ), d / g⟩

/-- Python's `float(·)` on finite decimal/scientific literals, as an exact
rational: optional sign, digits with an optional point, optional exponent.
Returns `none` exactly when Python's `float` raises `ValueError` (non-finite
literals and digit-group underscores are outside the modelled domain; the
call sites feed it already-stripped strings, so surrounding whitespace never
occurs). -/
def pyFloat (s : Str) : Option Q :=
  let neg : Bool := match s with | '-' :: _ => true | _ => false
  let s1 : Str := match s with | '+' :: r => r | '-' :: r => r | _ => s
  let intPart := s1.takeWhile isDigitCh
  let s2 := s1.dropWhile isDigitCh
  let fracPart : Str := match s2 with | '.' :: r => r.takeWhile isDigitCh | _ => []
  let s3 : Str := match s2 with | '.' :: r => r.dropWhile isDigitCh | _ => s2
  if intPart = [] ∧ fracPart = [] then none
  else
    let mn : ℕ := natVal intPart * 10 ^ fracPart.length + natVal fracPart
    let md : ℕ := 10 ^ fracPart.length
    let signed : ℤ := if neg then -(mn : ℤ) else (mn : ℤ)
    match s3 with
    | [] => some (mkQ signed md)
    | c :: r =>
      if c = 'e' ∨ c = 'E' then
        let eneg : Bool := match r with | '-' :: _ => true | _ => false
        let r1 : Str := match r with | '+' :: rr => rr | '-' :: rr => rr | _ => r
        let eds := r1.takeWhile isDigitCh
        let r2 := r1.dropWhile isDigitCh
        if eds = [] ∨ r2 ≠ [] then none
        else if eneg then some (mkQ signed (md * 10 ^ natVal eds))
        else some (mkQ (signed * ((10 ^ natVal eds : ℕ) : ℤ)) md)
      else none

/-- A table cell after conversion: float, text, or `None`. -/
inductive Cell where
  | num (q : Q)
  | str (s : Str)
  | null
deriving DecidableEq

/-- The `clean_and_convert` helper: drop bars, strip, map dash/empty to null,
strip thousands periods, comma to point, try float, else keep the cleaned text. -/
def cleanAndConvert (v : Str) : Cell :=
  let cleaned := pyStrip (v.filter (fun c => c ≠ '|'))
  if cleaned = ['—'] ∨ cleaned = ['-'] ∨ cleaned = [] then Cell.null
  else
    let standardized := (cleaned.filter (fun c => c ≠ '.')).map
      (fun c => if c = ',' then '.' else c)
    match pyFloat standardized with
    | some q => Cell.num q
    | none => Cell.str cleaned

/-- One element of an embedded regular expression: a literal character, an
optional literal (`x?` greedy / `x??` lazy), a single-character class, or a
class repeated (`+` / `*`). -/
inductive Tok where
  | tlit (c : Char)
  | topt (c : Char)
  | toptL (c : Char)
  | tcls (f : Char → Bool)
  | tcls0 (f : Char → Bool)
  | tcls1 (f : Char → Bool)

/-- Fuelled worker for `mtEnd`; every recursive call strictly decreases
`ts.length + s.length`, so the fuel `mtEnd` supplies is never exhausted. -/
def mtEndF : ℕ → List Tok → Str → Option ℕ
  | 0, _, _ => none
  | _ + 1, [], _ => some 0
  | _ + 1, Tok.tlit _ :: _, [] => none
  | fuel + 1, Tok.tlit c :: ts, d :: s =>
    if d = c then (mtEndF fuel ts s).map (· + 1) else none
  | fuel + 1, Tok.topt _ :: ts, [] => mtEndF fuel ts []
  | fuel + 1, Tok.topt c :: ts, d :: s =>
    if d = c then
      match (mtEndF fuel ts s).map (· + 1) with
      | some n => some n
      | none => mtEndF fuel ts (d :: s)
    else mtEndF fuel ts (d :: s)
  | fuel + 1, Tok.toptL _ :: ts, [] => mtEndF fuel ts []
  | fuel + 1, Tok.toptL c :: ts, d :: s =>
    match mtEndF fuel ts (d :: s) with
    | some n => some n
    | none => if d = c then (mtEndF fuel ts s).map (· + 1) else none
  | _ + 1, Tok.tcls _ :: _, [] => none
  | fuel + 1, Tok.tcls f :: ts, d :: s =>
    if f d then (mtEndF fuel ts s).map (· + 1) else none
  | fuel + 1, Tok.tcls0 _ :: ts, [] => mtEndF fuel ts []
  | fuel + 1, Tok.tcls0 f :: ts, d :: s =>
    if f d then
      match (mtEndF fuel (Tok.tcls0 f :: ts) s).map (· + 1) with
      | some n => some n
      | none => mtEndF fuel ts (d :: s)
    else mtEndF fuel ts (d :: s)
  | _ + 1, Tok.tcls1 _ :: _, [] => none
  | fuel + 1, Tok.tcls1 f :: ts, d :: s =>
    if f d then (mtEndF fuel (Tok.tcls0 f :: ts) s).map (· + 1) else none

/-- Match a token list against a prefix of `s`, returning the number of
characters consumed by the match Python's backtracking engine would return
(`none` when there is no match).  `topt`, `tcls0`, `tcls1` prefer the longer
alternative first (greedy), `toptL` the shorter (lazy). -/
def mtEnd (ts : List Tok) (s : Str) : Option ℕ :=
  mtEndF (ts.length + s.length + 1) ts s

/-- First match of the pattern in `s`: offset of the leftmost position where
the pattern matches, with the length of the (backtracking-preferred) match. -/
def firstMatch (p : List Tok) : Str → Option (ℕ × ℕ)
  | [] =>
    match mtEnd p [] with
    | some e => some (0, e)
    | none => none
  | c :: s' =>
    match mtEnd p (c :: s') with
    | some e => some (0, e)
    | none => (firstMatch p s').map (fun ke => (ke.1 + 1, ke.2))

/-- `re.search(pattern, s)`: start index of the leftmost match. -/
def search (p : List Tok) (s : Str) : Option ℕ := (firstMatch p s).map (·.1)

/-- `re.search(pattern, s, pos)`: start index of the leftmost match at or
after `i`. -/
def searchFromIdx (p : List Tok) (s : Str) (i : ℕ) : Option ℕ :=
  (search p (s.drop i)).map (· + i)

/-- `re.search` for the pattern prefixed with `^` (no MULTILINE): only a match
anchored at the start of the string is found. -/
def anchoredSearch (p : List Tok) (s : Str) : Option ℕ :=
  if (mtEnd p s).isSome then some 0 else none

/-- Start indices of all matches found by `re.finditer`: leftmost matches,
non-overlapping, resuming after each match (a zero-width match advances by
one, as in Python). -/
def finditerAux (p : List Tok) : ℕ → Str → ℕ → List ℕ
  | 0, _, _ => []
  | fuel + 1, s, base =>
    match firstMatch p s with
    | none => []
    | some (k, e) =>
      (base + k) :: finditerAux p fuel (s.drop (k + max e 1)) (base + k + max e 1)

/-- All match start indices of `re.finditer(p, s)`. -/
def finditer (p : List Tok) (s : Str) : List ℕ :=
  finditerAux p (s.length + 1) s 0

/-- Shorthand for `\s+`. -/
def ws1 : Tok := Tok.tcls1 isPyWS

/-- Shorthand for `\s*`. -/
def ws0 : Tok := Tok.tcls0 isPyWS

/-- Literal tokens of a plain string. -/
def lits (s : Str) : List Tok := s.map Tok.tlit

/-- `termino\s+de\s+potencia\s*\(\s*€/?\s*\/??\s*kw\s*y\s*dia\s*\)`. -/
def potenciaStartP : List Tok :=
  lits ("termino".toList) ++ [ws1] ++ lits ("de".toList) ++ [ws1] ++
  lits ("potencia".toList) ++ [ws0, Tok.tlit '(', ws0, Tok.tlit '€',
  Tok.topt '/', ws0, Tok.toptL '/', ws0] ++ lits ("kw".toList) ++
  [ws0, Tok.tlit 'y', ws0] ++ lits ("dia".toList) ++ [ws0, Tok.tlit ')']

/-- `estos\s+precios\s+llevar?n?\s+incluidos`. -/
def potenciaEndP : List Tok :=
  lits ("estos".toList) ++ [ws1] ++ lits ("precios".toList) ++ [ws1] ++
  lits ("lleva".toList) ++ [Tok.topt 'r', Tok.topt 'n', ws1] ++
  lits ("incluidos".toList)

/-- `precio\s+potencia\s*\(\s*€/?\s*kw\s*y\s*dia\s*\)`. -/
def potenciaTitleP : List Tok :=
  lits ("precio".toList) ++ [ws1] ++ lits ("potencia".toList) ++
  [ws0, Tok.tlit '(', ws0, Tok.tlit '€', Tok.topt '/', ws0] ++
  lits ("kw".toList) ++ [ws0, Tok.tlit 'y', ws0] ++ lits ("dia".toList) ++
  [ws0, Tok.tlit ')']

/-- `precio\s+clasica\s+base\s+te\s*\d\s*\(\s*c€/?\s*kwh\s*\)`. -/
def clasicaBaseStartP : List Tok :=
  lits ("precio".toList) ++ [ws1] ++ lits ("clasica".toList) ++ [ws1] ++
  lits ("base".toList) ++ [ws1] ++ lits ("te".toList) ++
  [ws0, Tok.tcls isDigitCh, ws0, Tok.tlit '(', ws0, Tok.tlit 'c',
  Tok.tlit '€', Tok.topt '/', ws0] ++ lits ("kwh".toList) ++
  [ws0, Tok.tlit ')']

/-- `precio\s+clasica\s+base\s+te\s*\d\s+unica`. -/
def clasicaBaseEndP : List Tok :=
  lits ("precio".toList) ++ [ws1] ++ lits ("clasica".toList) ++ [ws1] ++
  lits ("base".toList) ++ [ws1] ++ lits ("te".toList) ++
  [ws0, Tok.tcls isDigitCh, ws1] ++ lits ("unica".toList)

/-- `precio\s+clasica\s+base\s+te\s*\d+\s*\(\s*c€/?\s*kwh\s*\)`. -/
def clasicaBaseTitleP : List Tok :=
  lits ("precio".toList) ++ [ws1] ++ lits ("clasica".toList) ++ [ws1] ++
  lits ("base".toList) ++ [ws1] ++ lits ("te".toList) ++
  [ws0, Tok.tcls1 isDigitCh, ws0, Tok.tlit '(', ws0, Tok.tlit 'c',
  Tok.tlit '€', Tok.topt '/', ws0] ++ lits ("kwh".toList) ++
  [ws0, Tok.tlit ')']

/-- `precio\s+clasica\s+base\s+te\s*\d\s+unica\s*\(\s*c€/?\s*kwh\s*\)`. -/
def unicaStartP : List Tok :=
  lits ("precio".toList) ++ [ws1] ++ lits ("clasica".toList) ++ [ws1] ++
  lits ("base".toList) ++ [ws1] ++ lits ("te".toList) ++
  [ws0, Tok.tcls isDigitCh, ws1] ++ lits ("unica".toList) ++
  [ws0, Tok.tlit '(', ws0, Tok.tlit 'c', Tok.tlit '€', Tok.topt '/', ws0] ++
  lits ("kwh".toList) ++ [ws0, Tok.tlit ')']

/-- `en\s+caso\s+de\s+no\s+marcar\s+la\s+casilla`. -/
def unicaEndP : List Tok :=
  lits ("en".toList) ++ [ws1] ++ lits ("caso".toList) ++ [ws1] ++
  lits ("de".toList) ++ [ws1] ++ lits ("no".toList) ++ [ws1] ++
  lits ("marcar".toList) ++ [ws1] ++ lits ("la".toList) ++ [ws1] ++
  lits ("casilla".toList)

/-- Split on a separator character, keeping empty pieces (Python `str.split(c)`). -/
def splitOnChar (c : Char) : Str → List Str
  | [] => [[]]
  | d :: s =>
    if d = c then [] :: splitOnChar c s
    else
      match splitOnChar c s with
      | r :: rs => (d :: r) :: rs
      | [] => [[d]]

/-- A separator of `re.split(r"\s{2,}", ·)` begins here: two adjacent
whitespace characters. -/
def isSepStart : Str → Bool
  | c :: d :: _ => isPyWS c && isPyWS d
  | _ => false

/-- Worker for `splitWs2`: when `inSep` is set the scan is still consuming
the whitespace of a separator run. -/
def swAux : Bool → Str → List Str
  | true, [] => [[]]
  | false, [] => [[]]
  | true, c :: s =>
    if isPyWS c then swAux true s
    else
      match swAux false s with
      | r :: rs => (c :: r) :: rs
      | [] => [[c]]
  | false, c :: s =>
    if isSepStart (c :: s) then
      [] :: swAux true s
    else
      match swAux false s with
      | r :: rs => (c :: r) :: rs
      | [] => [[c]]

/-- `re.split(r"\s{2,}", line)`: split on runs of two or more whitespace
characters. -/
def splitWs2 (s : Str) : List Str := swAux false s

/-- A columnar table: an insertion-ordered association of header name to
column values (the Python dict of lists; `[]` is the empty dict `{}`). -/
abbrev ColTable := List (Str × List Cell)

/-- First column stored under a key (Python `dict.get`; table keys are unique). -/
def lookupCol : ColTable → Str → Option (List Cell)
  | [], _ => none
  | (k', v) :: rest, k => if k' = k then some v else lookupCol rest k

/-- Dash-like characters of a separator row. -/
def dashLike (c : Char) : Bool := c = '-' ∨ c = '–' ∨ c = '—'

/-- Split one data line into stripped, nonempty fragments: on `|` when the
line contains one, else on runs of two or more spaces. -/
def lineParts (line : Str) : List Str :=
  let raw := if line.contains '|' then splitOnChar '|' line else splitWs2 line
  (raw.map pyStrip).filter (fun p => p ≠ [])

/-- A parsed line is kept unless it is empty or its first fragment is all
dash-like characters (a separator row). -/
def keepParts (parts : List Str) : Bool :=
  match parts with
  | [] => false
  | p0 :: _ => ¬ p0.all dashLike

/-- One column per header: the `idx`-th fragment of each kept line, converted,
`null` when the line has fewer fragments. -/
def colsAux (kept : List (List Str)) : List Str → ℕ → ColTable
  | [], _ => []
  | h :: hs, i =>
    (h, kept.map (fun parts =>
      match parts.get? i with
      | some p => cleanAndConvert p
      | none => Cell.null)) :: colsAux kept hs (i + 1)

/-- Longest column length. -/
def maxColLen (t : ColTable) : ℕ := (t.map (fun kv => kv.2.length)).foldr max 0

/-- Right-pad every column with `null` to the longest column's length. -/
def padCols (t : ColTable) : ColTable :=
  t.map (fun kv => (kv.1, kv.2 ++ List.replicate (maxColLen t - kv.2.length) Cell.null))

/-- Locate the header row: the first line containing every normalized header
as a substring, else the first adjacent pair whose (stripped) concatenation
does when there are at least two lines. -/
def findHeaderRow (lines : List Str) (normHeaders : List Str) : Option ℕ :=
  match lines.findIdx? (fun l => normHeaders.all (fun h => occurs h l)) with
  | some i => some i
  | none =>
    if 2 ≤ lines.length then
      (lines.zip lines.tail).findIdx? (fun ab =>
        normHeaders.all (fun h => occurs h (pyStrip (ab.1 ++ ' ' :: ab.2))))
    else none

/-- Parse the lines of an isolated table block into columns: find the header
row, split and convert the following data lines, pad columns. -/
def parseCore (block : Str) (headers : List Str) : ColTable :=
  let lines := splitOnChar '\n' (pyStrip block)
  let normHeaders := headers.map normalizeText
  match findHeaderRow lines normHeaders with
  | none => []
  | some hi =>
    let dataLines := lines.drop (hi + 1)
    let kept := (dataLines.map lineParts).filter keepParts
    padCols (colsAux kept headers 0)

/-- The `parse_table_to_columns` helper: locate the start marker with the
given searcher, cut the block at the end marker (or the end of text), parse
the block.  `{}` (here `[]`) when the start marker or the header row is
missing. -/
def parseTableToColumns (norm : Str) (headers : List Str)
    (searchStart : Str → Option ℕ) (endP : List Tok) : ColTable :=
  match searchStart norm with
  | none => []
  | some i =>
    let block :=
      match searchFromIdx endP norm i with
      | some e => (norm.drop i).take (e - i)
      | none => norm.drop i
    parseCore block headers

/-- The `expand_unica_table` helper: duplicate the combined `P1 - P6` column
into `P1`..`P6`, carrying `TARIFA` and `POTENCIA CONTRATADA` over; empty when
the combined column is absent. -/
def expandUnica (t : ColTable) : ColTable :=
  if t = [] ∨ lookupCol t ("P1 - P6".toList) = none then []
  else
    let price := (lookupCol t ("P1 - P6".toList)).getD []
    (match lookupCol t ("TARIFA".toList) with
     | some v => [(("TARIFA".toList : Str), v)]
     | none => []) ++
    (match lookupCol t ("POTENCIA CONTRATADA".toList) with
     | some v => [(("POTENCIA CONTRATADA".toList : Str), v)]
     | none => []) ++
    [("P1".toList, price), ("P2".toList, price), ("P3".toList, price),
     ("P4".toList, price), ("P5".toList, price), ("P6".toList, price)]

/-- One reshaped record with the eight fixed fields. -/
structure TariffRow where
  tarifa : Cell
  potencia_contratada : Cell
  P1 : Cell
  P2 : Cell
  P3 : Cell
  P4 : Cell
  P5 : Cell
  P6 : Cell
deriving DecidableEq

/-- The value a row takes at index `i` from column `k`: the `i`-th entry when
the column exists and is long enough, else `null`. -/
def fieldAt (t : ColTable) (k : Str) (i : ℕ) : Cell :=
  match lookupCol t k with
  | some col =>
    match col.get? i with
    | some c => c
    | none => Cell.null
  | none => Cell.null

/-- The `columns_to_tarifas` helper: pivot a columnar table into one record
per row index up to the longest column's length. -/
def columnsToTarifas (t : ColTable) : List TariffRow :=
  (List.range (maxColLen t)).map (fun i =>
    { tarifa := fieldAt t ("TARIFA".toList) i
      potencia_contratada := fieldAt t ("POTENCIA CONTRATADA".toList) i
      P1 := fieldAt t ("P1".toList) i
      P2 := fieldAt t ("P2".toList) i
      P3 := fieldAt t ("P3".toList) i
      P4 := fieldAt t ("P4".toList) i
      P5 := fieldAt t ("P5".toList) i
      P6 := fieldAt t ("P6".toList) i })

/-- Newline normalization used on the original text before line splitting. -/
def nlNorm (s : Str) : Str :=
  replaceAll ['\r'] ['\n'] (replaceAll ['\r', '\n'] ['\n'] s)

/-- The `find_title_line` helper: first original line whose normalization
matches the pattern, cleaned of `#`/`|` framing; when the cleaned line still
contains `|`, the first segment whose normalization also matches replaces it. -/
def findTitleLine (orig : Str) (rx : List Tok) : Option Str :=
  if orig = [] then none
  else
    match (splitOnChar '\n' (nlNorm orig)).find?
        (fun l => (search rx (normalizeText l)).isSome) with
    | none => none
    | some line =>
      let cleaned :=
        pyStrip (trimWith (fun c => c = '|') (trimWith (fun c => c = '#') (pyStrip line)))
      let cleaned2 :=
        if cleaned.contains '|' then
          match (((splitOnChar '|' cleaned).map pyStrip).filter (fun p => p ≠ [])).find?
              (fun part => (search rx (normalizeText part)).isSome) with
          | some part => pyStrip part
          | none => cleaned
        else cleaned
      if cleaned2 = [] then none else some cleaned2

/-- A titled table of tariff rows. -/
structure TablaPrecio where
  titulo : Str
  tarifas : List TariffRow
deriving DecidableEq

/-- The power-term section. -/
structure TerminoDePotencia where
  titulo : Str
  tabla_precio_potencia : TablaPrecio
deriving DecidableEq

/-- The energy-term section. -/
structure TerminoDeEnergia where
  titulo : Str
  tabla_precio_clasica_base : TablaPrecio
  tabla_precio_clasica_unica : TablaPrecio
deriving DecidableEq

/-- The full result of `extract_price_tables_from_text`. -/
structure ExtractionResult where
  filename : Str
  termino_de_potencia : TerminoDePotencia
  termino_de_energia : TerminoDeEnergia
deriving DecidableEq

/-- Headers of the potencia table. -/
def potenciaHeaders : List Str :=
  ["TARIFA".toList, "POTENCIA CONTRATADA".toList, "P1".toList, "P2".toList,
   "P3".toList, "P4".toList, "P5".toList, "P6".toList]

/-- Headers of the clasica-base table (same as potencia). -/
def clasicaBaseHeaders : List Str := potenciaHeaders

/-- Headers of the unica table (combined period column). -/
def unicaHeaders : List Str :=
  ["TARIFA".toList, "POTENCIA CONTRATADA".toList, "P1 - P6".toList]

/-- The entry point `extract_price_tables_from_text`. -/
def extract (text : Str) : ExtractionResult :=
  let norm := normalizeText text
  let potenciaData :=
    parseTableToColumns norm potenciaHeaders (search potenciaStartP) potenciaEndP
  let clasicaBaseData :=
    parseTableToColumns norm clasicaBaseHeaders (search clasicaBaseStartP) clasicaBaseEndP
  let unicaDataRaw :=
    match (finditer unicaStartP norm).getLast? with
    | some j =>
      parseTableToColumns (norm.drop j) unicaHeaders (anchoredSearch unicaStartP) unicaEndP
    | none => []
  let unicaDataExpanded := expandUnica unicaDataRaw
  let tituloPotencia := (findTitleLine text potenciaTitleP).getD ("PRECIO POTENCIA (€/kWdía)".toList)
  let tituloBase := (findTitleLine text clasicaBaseTitleP).getD ("PRECIO CLÁSICA BASE TE3 (c€/kWh)".toList)
  let tituloUnica := (findTitleLine text unicaStartP).getD ("PRECIO CLÁSICA BASE TE3 UNICA (c€/kWh)".toList)
  { filename := "Total Energies".toList
    termino_de_potencia :=
      { titulo := "TÉRMINO DE POTENCIA (€/kW y día)".toList
        tabla_precio_potencia :=
          { titulo := tituloPotencia
            tarifas := columnsToTarifas potenciaData } }
    termino_de_energia :=
      { titulo := "TÉRMINO DE ENERGÍA (c€/kWh)".toList
        tabla_precio_clasica_base :=
          { titulo := tituloBase
            tarifas := columnsToTarifas clasicaBaseData }
        tabla_precio_clasica_unica :=
          { titulo := tituloUnica
            tarifas := columnsToTarifas unicaDataExpanded } } }

/-- One character's contribution to `strip_accents`: its decomposition with
combining marks removed. -/
def stripOne (c : Char) : Str :=
  (decompChar c).filter (fun d => ¬ isCombiningMark d)

/-- A character untouched by accent stripping and lowercasing. -/
def good (c : Char) : Prop := stripOne c = [c] ∧ lowerChar c = c

instance (c : Char) : Decidable (good c) := by unfold good; infer_instance

/-- The next character, if any, does not continue a double space after `c`. -/
def okPair (c : Char) : Str → Bool
  | d :: _ => !(c == ' ' && d == ' ')
  | [] => true

/-- No tab and no two adjacent spaces anywhere in the string (the shape of
`collapseWS`'s output on the space/tab alphabet). -/
def noRun : Str → Bool
  | [] => true
  | c :: s => (c != '\t') && okPair c s && noRun s

/-- The eight field values of a row, in declaration order. -/
def rowFields (r : TariffRow) : List Cell :=
  [r.tarifa, r.potencia_contratada, r.P1, r.P2, r.P3, r.P4, r.P5, r.P6]

/-- The end-to-end scenario input of the specification: the potencia start
marker, the header line, one data line, the end marker. -/
def docPot : Str :=
  ("termino de potencia (€/kw y dia)\nTARIFA | POTENCIA CONTRATADA | P1 | P2 | P3 | P4 | P5 | P6\nTE1 | 3.45 | 0,12 | 0,15 | 0,10 | 0,10 | 0,15 | 0,12\nestos precios llevan incluidos".toList)

/-- A document in which the unica start marker occurs twice, with different
data rows beneath each occurrence. -/
def docUni : Str :=
  ("precio clasica base te1 unica (c€/kwh)\nTARIFA | POTENCIA CONTRATADA | P1 - P6\nBAD | 1,0 | 2,0\nprecio clasica base te1 unica (c€/kwh)\nTARIFA | POTENCIA CONTRATADA | P1 - P6\nGOOD | 3,0 | 4,0\nen caso de no marcar la casilla".toList)

end Docling

namespace Docling

/-- C10: for every input text the result carries the constant filename
"Total Energies" and the fixed section titles "TÉRMINO DE POTENCIA (€/kW y
día)" and "TÉRMINO DE ENERGÍA (c€/kWh)", regardless of content. -/
theorem C10_fixed_filename_and_titles (t : Str) :
    (extract t).filename = ("Total Energies".toList) ∧
    (extract t).termino_de_potencia.titulo = ("TÉRMINO DE POTENCIA (€/kW y día)".toList) ∧
    (extract t).termino_de_energia.titulo = ("TÉRMINO DE ENERGÍA (c€/kWh)".toList) :=
  ⟨rfl, rfl, rfl⟩

/-- C2, counterexample: on the end-to-end scenario input the code does not
return the row claimed (tarifa "TE1", potencia_contratada 3.45, ...): the
tarifa cell is lowercased by the normalization the parser works on, and
"3.45" has its period stripped as a thousands separator, giving 345. -/
theorem C2_counterexample :
    (extract docPot).termino_de_potencia.tabla_precio_potencia.tarifas ≠
      [{ tarifa := Cell.str ("TE1".toList), potencia_contratada := Cell.num (mkQ 345 100),
         P1 := Cell.num (mkQ 12 100), P2 := Cell.num (mkQ 15 100), P3 := Cell.num (mkQ 10 100),
         P4 := Cell.num (mkQ 10 100), P5 := Cell.num (mkQ 15 100), P6 := Cell.num (mkQ 12 100) }] := by
  decide

/-- C2, amended: on the end-to-end scenario input, extraction returns exactly
one row under tabla_precio_potencia.tarifas, with tarifa "te1" (the parser
reads the normalized text, so the cell is lowercased), potencia_contratada
345 (the period of "3.45" is stripped as a thousands separator before the
float conversion), and P1..P6 = 0.12, 0.15, 0.10, 0.10, 0.15, 0.12. -/
theorem C2_amended_end_to_end :
    (extract docPot).termino_de_potencia.tabla_precio_potencia.tarifas =
      [{ tarifa := Cell.str ("te1".toList), potencia_contratada := Cell.num (mkQ 345 1),
         P1 := Cell.num (mkQ 12 100), P2 := Cell.num (mkQ 15 100), P3 := Cell.num (mkQ 10 100),
         P4 := Cell.num (mkQ 10 100), P5 := Cell.num (mkQ 15 100), P6 := Cell.num (mkQ 12 100) }] := by
  decide

/-- C3, counterexample: the string cell "te1" returned for the scenario input
is not a substring of the original text (which only contains "TE1"), so
string cells are not taken from the original text preserving case; the
normalized form does surface as an output value. -/
theorem C3_counterexample :
    ((extract docPot).termino_de_potencia.tabla_precio_potencia.tarifas.map
        (fun r => r.tarifa)) = [Cell.str ("te1".toList)] ∧
      occurs ("te1".toList) docPot = false := by
  decide

/-- C4, counterexample: `normalize_text` is not idempotent.  On "k  w" the
first pass finds no "k w" (two spaces intervene), then collapses the spaces,
producing "k w"; the second pass rewrites that to "kw", because the
punctuation replacements run before whitespace collapsing. -/
theorem C4_counterexample :
    normalizeText (normalizeText ("k  w".toList)) ≠ normalizeText ("k  w".toList) := by
  decide

/-- C5: cell conversion maps "1.234,56" to the number 1234.56; any cell whose
bar-stripped, whitespace-stripped form is an em-dash, a hyphen or empty maps
to null; and on float-parse failure the cleaned string is returned unchanged,
e.g. "TE1" passes through. -/
theorem C5_cell_conversion :
    cleanAndConvert ("1.234,56".toList) = Cell.num (mkQ 123456 100) ∧
    (∀ v : Str,
      (pyStrip (v.filter (fun c => c ≠ '|')) = ['—'] ∨
       pyStrip (v.filter (fun c => c ≠ '|')) = ['-'] ∨
       pyStrip (v.filter (fun c => c ≠ '|')) = []) →
      cleanAndConvert v = Cell.null) ∧
    cleanAndConvert ("TE1".toList) = Cell.str ("TE1".toList) := by
  refine ⟨by decide, ?_, by decide⟩
  intro v h
  simp only [cleanAndConvert]
  rw [if_pos h]

/-- Witness for C5 at the concrete cell "| — |". -/
theorem C5_cell_conversion_witness :
    cleanAndConvert ("| — |".toList) = Cell.null :=
  C5_cell_conversion.2.1 ("| — |".toList) (by decide)

theorem mem_of_getLast?_eq {l : List ℕ} {a : ℕ} (h : l.getLast? = some a) : a ∈ l := by
  induction l with
  | nil => simp at h
  | cons x xs ih =>
    cases xs with
    | nil => simp at h; simp [h]
    | cons y ys =>
      rw [List.getLast?_cons_cons] at h
      exact List.mem_cons_of_mem x (ih h)

theorem finditerAux_base_le (p : List Tok) :
    ∀ fuel s base a, a ∈ finditerAux p fuel s base → base ≤ a := by
  intro fuel
  induction fuel with
  | zero => intro s base a h; simp [finditerAux] at h
  | succ n ih =>
    intro s base a h
    cases hfm : firstMatch p s with
    | none => rw [finditerAux, hfm] at h; simp at h
    | some ke =>
      obtain ⟨k, e⟩ := ke
      have hstep : finditerAux p (n + 1) s base =
          (base + k) :: finditerAux p n (s.drop (k + max e 1)) (base + k + max e 1) := by
        rw [finditerAux, hfm]
      rw [hstep] at h
      rcases List.mem_cons.mp h with h | h
      · omega
      · have := ih _ _ _ h; omega

theorem finditerAux_le_getLast (p : List Tok) :
    ∀ fuel s base j, (finditerAux p fuel s base).getLast? = some j →
      ∀ a ∈ finditerAux p fuel s base, a ≤ j := by
  intro fuel
  induction fuel with
  | zero => intro s base j hj; simp [finditerAux] at hj
  | succ n ih =>
    intro s base j hj a ha
    cases hfm : firstMatch p s with
    | none => rw [finditerAux, hfm] at hj; simp at hj
    | some ke =>
      obtain ⟨k, e⟩ := ke
      have hstep : finditerAux p (n + 1) s base =
          (base + k) :: finditerAux p n (s.drop (k + max e 1)) (base + k + max e 1) := by
        rw [finditerAux, hfm]
      rw [hstep] at hj ha
      cases hrest : finditerAux p n (s.drop (k + max e 1)) (base + k + max e 1) with
      | nil =>
        rw [hrest] at hj ha
        simp at hj ha
        omega
      | cons x xs =>
        rw [hrest, List.getLast?_cons_cons] at hj
        rw [hrest] at ha
        rcases List.mem_cons.mp ha with ha | ha
        · have hjmem : j ∈ x :: xs := mem_of_getLast?_eq hj
          rw [← hrest] at hjmem
          have := finditerAux_base_le p n _ _ _ hjmem
          omega
        · exact ih _ _ _ (by rw [hrest]; exact hj) a (by rw [hrest]; exact ha)

/-- If the pattern does not match anywhere, `finditer` yields no matches. -/
theorem finditer_eq_nil {p : List Tok} {s : Str} (h : search p s = none) :
    finditer p s = [] := by
  have hfm : firstMatch p s = none := by
    cases hf : firstMatch p s with
    | none => rfl
    | some ke => rw [search, hf] at h; simp at h
  rw [finditer, finditerAux, hfm]

/-- C1: when none of the three start markers matches the normalized text,
extraction returns (totally, modelling "never raises") a result whose three
tarifas lists are all empty; one missing table never aborts the others. -/
theorem C1_no_markers_all_empty (t : Str)
    (h1 : search potenciaStartP (normalizeText t) = none)
    (h2 : search clasicaBaseStartP (normalizeText t) = none)
    (h3 : search unicaStartP (normalizeText t) = none) :
    (extract t).termino_de_potencia.tabla_precio_potencia.tarifas = [] ∧
    (extract t).termino_de_energia.tabla_precio_clasica_base.tarifas = [] ∧
    (extract t).termino_de_energia.tabla_precio_clasica_unica.tarifas = [] := by
  refine ⟨?_, ?_, ?_⟩
  · simp only [extract, parseTableToColumns, h1]
    rfl
  · simp only [extract, parseTableToColumns, h2]
    rfl
  · simp only [extract, finditer_eq_nil h3]
    rfl

/-- Witness for C1 at a concrete markerless text. -/
theorem C1_no_markers_all_empty_witness :
    (extract ("hello world".toList)).termino_de_potencia.tabla_precio_potencia.tarifas = [] ∧
    (extract ("hello world".toList)).termino_de_energia.tabla_precio_clasica_base.tarifas = [] ∧
    (extract ("hello world".toList)).termino_de_energia.tabla_precio_clasica_unica.tarifas = [] :=
  C1_no_markers_all_empty ("hello world".toList) (by decide) (by decide) (by decide)

/-- C6: whenever the unica start marker matches at two or more places, the
extracted unica table is computed from the suffix of the normalized text that
begins at the last match position (every match position is at most that one);
content between an earlier occurrence and the last one contributes nothing. -/
theorem C6_last_occurrence (t : Str)
    (h : 2 ≤ (finditer unicaStartP (normalizeText t)).length) :
    ∃ j, (finditer unicaStartP (normalizeText t)).getLast? = some j ∧
      (∀ i ∈ finditer unicaStartP (normalizeText t), i ≤ j) ∧
      (extract t).termino_de_energia.tabla_precio_clasica_unica.tarifas =
        columnsToTarifas (expandUnica (parseTableToColumns
          ((normalizeText t).drop j) unicaHeaders
          (anchoredSearch unicaStartP) unicaEndP)) := by
  have hne : finditer unicaStartP (normalizeText t) ≠ [] := by
    intro he; rw [he] at h; simp at h
  obtain ⟨j, hj⟩ : ∃ j, (finditer unicaStartP (normalizeText t)).getLast? = some j := by
    cases hg : (finditer unicaStartP (normalizeText t)).getLast? with
    | none => exact absurd (List.getLast?_eq_none_iff.mp hg) hne
    | some j => exact ⟨j, rfl⟩
  refine ⟨j, hj, ?_, ?_⟩
  · exact finditerAux_le_getLast unicaStartP _ _ _ j hj
  · simp only [extract, hj]

/-- C8: pivoting a columnar table yields exactly one record per index below
the longest column's length; each record's eight fields read their column at
that index, and a field is null whenever its column is absent or too short. -/
theorem C8_pivot_law (t : ColTable) :
    (columnsToTarifas t).length = maxColLen t ∧
    (∀ i, i < maxColLen t →
      (columnsToTarifas t).get? i = some
        { tarifa := fieldAt t ("TARIFA".toList) i
          potencia_contratada := fieldAt t ("POTENCIA CONTRATADA".toList) i
          P1 := fieldAt t ("P1".toList) i
          P2 := fieldAt t ("P2".toList) i
          P3 := fieldAt t ("P3".toList) i
          P4 := fieldAt t ("P4".toList) i
          P5 := fieldAt t ("P5".toList) i
          P6 := fieldAt t ("P6".toList) i }) ∧
    (∀ k i, lookupCol t k = none → fieldAt t k i = Cell.null) ∧
    (∀ k i col, lookupCol t k = some col → col.length ≤ i → fieldAt t k i = Cell.null) := by
  refine ⟨?_, ?_, ?_, ?_⟩
  · simp [columnsToTarifas]
  · intro i hi
    rw [columnsToTarifas, List.get?_map, List.get?_range hi]
    rfl
  · intro k i hk
    rw [fieldAt, hk]
  · intro k i col hk hlen
    simp only [fieldAt, hk, List.get?_eq_none.mpr hlen]

/-- Witness for C8 at a concrete one-column table. -/
theorem C8_pivot_law_witness :
    (0 : ℕ) < maxColLen [(("TARIFA".toList : Str), [Cell.null])] ∧
    (columnsToTarifas [(("TARIFA".toList : Str), [Cell.null])]).get? 0 = some
      { tarifa := fieldAt [(("TARIFA".toList : Str), [Cell.null])] ("TARIFA".toList) 0
        potencia_contratada :=
          fieldAt [(("TARIFA".toList : Str), [Cell.null])] ("POTENCIA CONTRATADA".toList) 0
        P1 := fieldAt [(("TARIFA".toList : Str), [Cell.null])] ("P1".toList) 0
        P2 := fieldAt [(("TARIFA".toList : Str), [Cell.null])] ("P2".toList) 0
        P3 := fieldAt [(("TARIFA".toList : Str), [Cell.null])] ("P3".toList) 0
        P4 := fieldAt [(("TARIFA".toList : Str), [Cell.null])] ("P4".toList) 0
        P5 := fieldAt [(("TARIFA".toList : Str), [Cell.null])] ("P5".toList) 0
        P6 := fieldAt [(("TARIFA".toList : Str), [Cell.null])] ("P6".toList) 0 } :=
  ⟨by decide, (C8_pivot_law [(("TARIFA".toList : Str), [Cell.null])]).2.1 0 (by decide)⟩

theorem colsAux_length {kept : List (List Str)} :
    ∀ (hs : List Str) (i : ℕ) (kv : Str × List Cell),
      kv ∈ colsAux kept hs i → kv.2.length = kept.length := by
  intro hs
  induction hs with
  | nil => intro i kv h; simp [colsAux] at h
  | cons h0 hs ih =>
    intro i kv h
    rw [colsAux] at h
    rcases List.mem_cons.mp h with h | h
    · rw [h]; exact List.length_map _ _
    · exact ih _ _ h

theorem padCols_length {t : ColTable} {K : ℕ} (hK : ∀ kv ∈ t, kv.2.length = K) :
    ∀ kv ∈ padCols t, kv.2.length = max (maxColLen t) K := by
  intro kv hkv
  rcases List.mem_map.mp hkv with ⟨kv0, hkv0, rfl⟩
  have := hK kv0 hkv0
  simp only [List.length_append, List.length_replicate]
  omega

/-- C9: every two columns produced by parsing one table region have the same
length — a short line contributes nulls, and columns are right-padded to the
longest column. -/
theorem C9_rectangular (norm : Str) (searchS : Str → Option ℕ) (endP : List Tok)
    (headers : List Str)
    (_hh : headers = potenciaHeaders ∨ headers = clasicaBaseHeaders ∨ headers = unicaHeaders) :
    ∀ kv1 ∈ parseTableToColumns norm headers searchS endP,
      ∀ kv2 ∈ parseTableToColumns norm headers searchS endP,
        kv1.2.length = kv2.2.length := by
  intro kv1 h1 kv2 h2
  rw [parseTableToColumns] at h1 h2
  cases hs : searchS norm with
  | none => rw [hs] at h1; simp at h1
  | some i =>
    rw [hs] at h1 h2
    simp only [parseCore] at h1 h2
    cases hf : findHeaderRow (splitOnChar '\n' (pyStrip
        (match searchFromIdx endP norm i with
         | some e => (norm.drop i).take (e - i)
         | none => norm.drop i))) (headers.map normalizeText) with
    | none => rw [hf] at h1; simp at h1
    | some hi =>
      rw [hf] at h1 h2
      have e1 := padCols_length (fun kv hkv => colsAux_length headers 0 kv hkv) kv1 h1
      have e2 := padCols_length (fun kv hkv => colsAux_length headers 0 kv hkv) kv2 h2
      rw [e1, e2]

/-- Witness for C9 on the scenario document's potencia table: the TARIFA and
P6 columns have the same length. -/
theorem C9_rectangular_witness :
    (("TARIFA".toList : Str), [Cell.str ("te1".toList)]).2.length =
      (("P6".toList : Str), [Cell.num (mkQ 12 100)]).2.length :=
  C9_rectangular (normalizeText docPot) (search potenciaStartP) potenciaEndP
    potenciaHeaders (Or.inl rfl)
    (("TARIFA".toList : Str), [Cell.str ("te1".toList)]) (by decide)
    (("P6".toList : Str), [Cell.num (mkQ 12 100)]) (by decide)

/-- C7: when the parsed unica table contains the combined column "P1 - P6",
the expansion has six columns P1..P6 all equal to the combined column's
values, with TARIFA and POTENCIA CONTRATADA carried over unchanged; when the
combined column is absent the expansion is the empty table. -/
theorem C7_period_expansion (t : ColTable) :
    (∀ vs, lookupCol t ("P1 - P6".toList) = some vs →
      lookupCol (expandUnica t) ("P1".toList) = some vs ∧
      lookupCol (expandUnica t) ("P2".toList) = some vs ∧
      lookupCol (expandUnica t) ("P3".toList) = some vs ∧
      lookupCol (expandUnica t) ("P4".toList) = some vs ∧
      lookupCol (expandUnica t) ("P5".toList) = some vs ∧
      lookupCol (expandUnica t) ("P6".toList) = some vs ∧
      lookupCol (expandUnica t) ("TARIFA".toList) = lookupCol t ("TARIFA".toList) ∧
      lookupCol (expandUnica t) ("POTENCIA CONTRATADA".toList) =
        lookupCol t ("POTENCIA CONTRATADA".toList)) ∧
    (lookupCol t ("P1 - P6".toList) = none → expandUnica t = []) := by
  constructor
  · intro vs hvs
    have hne : ¬(t = [] ∨ lookupCol t ("P1 - P6".toList) = none) := by
      rintro (rfl | hnone)
      · rw [lookupCol] at hvs; exact Option.noConfusion hvs
      · rw [hvs] at hnone; exact Option.noConfusion hnone
    rw [expandUnica, if_neg hne, hvs]
    cases h1 : lookupCol t ("TARIFA".toList) with
    | none =>
      cases h2 : lookupCol t ("POTENCIA CONTRATADA".toList) with
      | none => simp [lookupCol]
      | some v2 => simp [lookupCol]
    | some v1 =>
      cases h2 : lookupCol t ("POTENCIA CONTRATADA".toList) with
      | none => simp [lookupCol]
      | some v2 => simp [lookupCol]
  · intro hnone
    rw [expandUnica, if_pos (Or.inr hnone)]

/-- Witness for C7 at the specification's example table, whose combined
column holds the values 10.5 and 12. -/
theorem C7_period_expansion_witness :
    lookupCol (expandUnica [(("P1 - P6".toList : Str), [Cell.num (mkQ 105 10), Cell.num (mkQ 12 1)])])
        ("P1".toList) = some [Cell.num (mkQ 105 10), Cell.num (mkQ 12 1)] :=
  ((C7_period_expansion [(("P1 - P6".toList : Str), [Cell.num (mkQ 105 10), Cell.num (mkQ 12 1)])]).1
    [Cell.num (mkQ 105 10), Cell.num (mkQ 12 1)] (by decide)).1

theorem pfx_iff : ∀ {p s : Str}, pfx p s = true ↔ ∃ v, s = p ++ v := by
  intro p
  induction p with
  | nil => intro s; simp [pfx]
  | cons a p ih =>
    intro s
    cases s with
    | nil => simp [pfx]
    | cons b s =>
      rw [pfx, Bool.and_eq_true, decide_eq_true_eq]
      constructor
      · rintro ⟨rfl, hp⟩
        obtain ⟨v, rfl⟩ := ih.mp hp
        exact ⟨v, rfl⟩
      · rintro ⟨v, hv⟩
        rw [List.cons_append] at hv
        injection hv with h1 h2
        exact ⟨h1.symm, ih.mpr ⟨v, h2⟩⟩

theorem occurs_iff : ∀ {p s : Str}, occurs p s = true ↔ ∃ u v, s = u ++ p ++ v := by
  intro p s
  induction s with
  | nil =>
    rw [occurs, pfx_iff]
    constructor
    · rintro ⟨v, hv⟩; exact ⟨[], v, hv⟩
    · rintro ⟨u, v, huv⟩
      rcases List.append_eq_nil.mp (List.append_eq_nil.mp huv.symm).1 with ⟨h1, h2⟩
      exact ⟨v, by simp_all⟩
  | cons c s ih =>
    rw [occurs, Bool.or_eq_true, pfx_iff]
    constructor
    · rintro (⟨v, hv⟩ | ho)
      · exact ⟨[], v, by simp [hv]⟩
      · obtain ⟨u, v, rfl⟩ := ih.mp ho
        exact ⟨c :: u, v, rfl⟩
    · rintro ⟨u, v, huv⟩
      cases u with
      | nil => exact Or.inl ⟨v, by simpa using huv⟩
      | cons x u =>
        rw [List.cons_append, List.cons_append] at huv
        injection huv with h1 h2
        exact Or.inr (ih.mpr ⟨u, v, h2⟩)

theorem occurs_trans {a b c : Str} (h1 : occurs a b = true) (h2 : occurs b c = true) :
    occurs a c = true := by
  obtain ⟨u1, v1, rfl⟩ := occurs_iff.mp h1
  obtain ⟨u2, v2, rfl⟩ := occurs_iff.mp h2
  exact occurs_iff.mpr ⟨u2 ++ u1, v1 ++ v2, by simp⟩

theorem occurs_drop {p s : Str} {n : ℕ} (h : occurs p (s.drop n) = true) :
    occurs p s = true := by
  obtain ⟨u, v, he⟩ := occurs_iff.mp h
  refine occurs_iff.mpr ⟨s.take n ++ u, v, ?_⟩
  conv_lhs => rw [← List.take_append_drop n s]
  rw [he]
  simp

theorem occurs_take {p s : Str} {n : ℕ} (h : occurs p (s.take n) = true) :
    occurs p s = true := by
  obtain ⟨u, v, he⟩ := occurs_iff.mp h
  refine occurs_iff.mpr ⟨u, v ++ s.drop n, ?_⟩
  conv_lhs => rw [← List.take_append_drop n s]
  rw [he]
  simp

theorem mem_of_occurs {p s : Str} (h : occurs p s = true) : ∀ a ∈ p, a ∈ s := by
  obtain ⟨u, v, rfl⟩ := occurs_iff.mp h
  intro a ha
  simp [ha]

theorem dropEndWhile_decomp (f : Char → Bool) (s : Str) :
    ∃ v, s = dropEndWhile f s ++ v := by
  refine ⟨(s.reverse.takeWhile f).reverse, ?_⟩
  rw [dropEndWhile, ← List.reverse_append, List.takeWhile_append_dropWhile, List.reverse_reverse]

theorem trimWith_occurs (f : Char → Bool) (s : Str) : occurs (trimWith f s) s = true := by
  obtain ⟨v, hv⟩ := dropEndWhile_decomp f (s.dropWhile f)
  refine occurs_iff.mpr ⟨s.takeWhile f, v, ?_⟩
  unfold trimWith
  rw [List.append_assoc, ← hv, List.takeWhile_append_dropWhile]

theorem pyStrip_occurs (s : Str) : occurs (pyStrip s) s = true := trimWith_occurs _ s

theorem splitOnChar_first (c : Char) :
    ∀ s : Str, ∃ r rs v, splitOnChar c s = r :: rs ∧ s = r ++ v := by
  intro s
  induction s with
  | nil => exact ⟨[], [], [], rfl, rfl⟩
  | cons d s ih =>
    by_cases hd : d = c
    · exact ⟨[], splitOnChar c s, d :: s, by rw [splitOnChar, if_pos hd], rfl⟩
    · obtain ⟨r, rs, v, hsp, hv⟩ := ih
      refine ⟨d :: r, rs, v, ?_, by rw [List.cons_append, ← hv]⟩
      rw [splitOnChar, if_neg hd, hsp]

theorem splitOnChar_occurs (c : Char) :
    ∀ (s : Str) (piece : Str), piece ∈ splitOnChar c s → occurs piece s = true := by
  intro s
  induction s with
  | nil =>
    intro piece h
    rw [splitOnChar] at h
    rcases List.mem_singleton.mp h with rfl
    rfl
  | cons d s ih =>
    intro piece h
    by_cases hd : d = c
    · rw [splitOnChar, if_pos hd] at h
      rcases List.mem_cons.mp h with rfl | h
      · exact occurs_iff.mpr ⟨[], d :: s, rfl⟩
      · exact occurs_drop (n := 1) (ih piece h)
    · rw [splitOnChar, if_neg hd] at h
      obtain ⟨r, rs, v, hsp, hv⟩ := splitOnChar_first c s
      rw [hsp] at h
      rcases List.mem_cons.mp h with rfl | h
      · exact occurs_iff.mpr ⟨[], v, by rw [hv, List.nil_append, List.cons_append]⟩
      · exact occurs_drop (n := 1) (ih piece (by rw [hsp]; exact List.mem_cons_of_mem r h))

theorem splitOnChar_not_mem (c : Char) :
    ∀ (s : Str) (piece : Str), piece ∈ splitOnChar c s → c ∉ piece := by
  intro s
  induction s with
  | nil =>
    intro piece h
    rw [splitOnChar] at h
    rcases List.mem_singleton.mp h with rfl
    simp
  | cons d s ih =>
    intro piece h
    by_cases hd : d = c
    · rw [splitOnChar, if_pos hd] at h
      rcases List.mem_cons.mp h with rfl | h
      · simp
      · exact ih piece h
    · rw [splitOnChar, if_neg hd] at h
      obtain ⟨r, rs, v, hsp, hv⟩ := splitOnChar_first c s
      rw [hsp] at h
      rcases List.mem_cons.mp h with rfl | h
      · intro hc
        rcases List.mem_cons.mp hc with rfl | hc
        · exact hd rfl
        · exact ih r (by rw [hsp]; exact List.mem_cons_self r rs) hc
      · exact ih piece (by rw [hsp]; exact List.mem_cons_of_mem r h)

theorem swAux_false_first :
    ∀ s : Str, ∃ r rs v, swAux false s = r :: rs ∧ s = r ++ v := by
  intro s
  induction s with
  | nil => exact ⟨[], [], [], rfl, rfl⟩
  | cons d s ih =>
    by_cases hsep : isSepStart (d :: s) = true
    · exact ⟨[], swAux true s, d :: s, by rw [swAux, if_pos hsep], rfl⟩
    · obtain ⟨r, rs, v, hsp, hv⟩ := ih
      refine ⟨d :: r, rs, v, ?_, by rw [List.cons_append, ← hv]⟩
      rw [swAux, if_neg hsep, hsp]

theorem swAux_occurs :
    ∀ (s : Str) (b : Bool) (piece : Str), piece ∈ swAux b s → occurs piece s = true := by
  intro s
  induction s with
  | nil =>
    intro b piece h
    cases b with
    | true => rw [swAux] at h; rcases List.mem_singleton.mp h with rfl; rfl
    | false => rw [swAux] at h; rcases List.mem_singleton.mp h with rfl; rfl
  | cons d s ih =>
    intro b piece h
    cases b with
    | true =>
      rw [swAux] at h
      by_cases hw : isPyWS d = true
      · rw [if_pos hw] at h
        exact occurs_drop (n := 1) (ih true piece h)
      · rw [if_neg hw] at h
        obtain ⟨r, rs, v, hsp, hv⟩ := swAux_false_first s
        rw [hsp] at h
        rcases List.mem_cons.mp h with rfl | h
        · exact occurs_iff.mpr ⟨[], v, by rw [hv, List.nil_append, List.cons_append]⟩
        · exact occurs_drop (n := 1) (ih false piece (by rw [hsp]; exact List.mem_cons_of_mem r h))
    | false =>
      rw [swAux] at h
      by_cases hsep : isSepStart (d :: s) = true
      · rw [if_pos hsep] at h
        rcases List.mem_cons.mp h with rfl | h
        · exact occurs_iff.mpr ⟨[], d :: s, rfl⟩
        · exact occurs_drop (n := 1) (ih true piece h)
      · rw [if_neg hsep] at h
        obtain ⟨r, rs, v, hsp, hv⟩ := swAux_false_first s
        rw [hsp] at h
        rcases List.mem_cons.mp h with rfl | h
        · exact occurs_iff.mpr ⟨[], v, by rw [hv, List.nil_append, List.cons_append]⟩
        · exact occurs_drop (n := 1) (ih false piece (by rw [hsp]; exact List.mem_cons_of_mem r h))

theorem contains_false_not_mem {l : Str} {a : Char} (h : l.contains a = false) : a ∉ l := by
  intro hm
  have h2 : l.contains a = true := List.contains_iff_exists_mem_beq.mpr ⟨a, hm, by simp⟩
  rw [h2] at h
  exact Bool.noConfusion h

theorem cleanAndConvert_str {v s : Str} (h : cleanAndConvert v = Cell.str s) :
    s = pyStrip (v.filter (fun c => c ≠ '|')) := by
  simp only [cleanAndConvert] at h
  split at h
  · exact absurd h (by simp)
  · split at h
    · exact absurd h (by simp)
    · injection h with h
      exact h.symm

theorem lookupCol_mem : ∀ {t : ColTable} {k : Str} {col : List Cell},
    lookupCol t k = some col → (k, col) ∈ t := by
  intro t
  induction t with
  | nil => intro k col h; rw [lookupCol] at h; exact Option.noConfusion h
  | cons kv rest ih =>
    intro k col h
    obtain ⟨k', v⟩ := kv
    rw [lookupCol] at h
    by_cases hk : k' = k
    · rw [if_pos hk] at h
      injection h with h
      subst hk
      subst h
      exact List.mem_cons_self _ _
    · exact List.mem_cons_of_mem _ (ih (by rw [if_neg hk] at h; exact h))

theorem lineParts_mem {line p : Str} (h : p ∈ lineParts line) :
    occurs p line = true ∧ '|' ∉ p := by
  simp only [lineParts] at h
  obtain ⟨piece, hpiece, rfl⟩ := List.mem_map.mp (List.mem_filter.mp h).1
  by_cases hbar : line.contains '|' = true
  · rw [if_pos hbar] at hpiece
    have h1 : occurs piece line = true := splitOnChar_occurs '|' line piece hpiece
    have h2 : '|' ∉ piece := splitOnChar_not_mem '|' line piece hpiece
    have h3 : occurs (pyStrip piece) line := occurs_trans (pyStrip_occurs piece) h1
    exact ⟨h3, fun hm => h2 (mem_of_occurs (pyStrip_occurs piece) '|' hm)⟩
  · rw [if_neg hbar] at hpiece
    have h1 : occurs piece line = true := swAux_occurs line false piece hpiece
    have h3 : occurs (pyStrip piece) line := occurs_trans (pyStrip_occurs piece) h1
    have h4 : '|' ∉ line := contains_false_not_mem (Bool.not_eq_true _ ▸ hbar)
    exact ⟨h3, fun hm => h4 (mem_of_occurs h3 '|' hm)⟩

theorem colsAux_str {kept : List (List Str)} :
    ∀ (hs : List Str) (i : ℕ) (k : Str) (col : List Cell) (s : Str),
      (k, col) ∈ colsAux kept hs i → Cell.str s ∈ col →
      ∃ parts ∈ kept, ∃ p ∈ parts, cleanAndConvert p = Cell.str s := by
  intro hs
  induction hs with
  | nil => intro i k col s hmem _; rw [colsAux] at hmem; exact absurd hmem (List.not_mem_nil _)
  | cons h0 hs ih =>
    intro i k col s hmem hstr
    rw [colsAux] at hmem
    rcases List.mem_cons.mp hmem with heq | hmem
    · injection heq with heq1 heq2
      rw [heq2] at hstr
      obtain ⟨parts, hparts, hf⟩ := List.mem_map.mp hstr
      cases hg : parts.get? i with
      | none => rw [hg] at hf; exact absurd hf (by simp)
      | some p =>
        rw [hg] at hf
        exact ⟨parts, hparts, p, List.get?_mem hg, hf⟩
    · exact ih _ _ _ _ hmem hstr

theorem parseCore_str {block : Str} {headers : List Str} {k : Str} {col : List Cell} {s : Str}
    (hmem : (k, col) ∈ parseCore block headers) (hstr : Cell.str s ∈ col) :
    occurs s block = true := by
  simp only [parseCore] at hmem
  cases hf : findHeaderRow (splitOnChar '\n' (pyStrip block)) (headers.map normalizeText) with
  | none => rw [hf] at hmem; exact absurd hmem (List.not_mem_nil _)
  | some hi =>
    rw [hf] at hmem
    obtain ⟨⟨k0, col0⟩, hc0, heq⟩ := List.mem_map.mp hmem
    injection heq with heq1 heq2
    rw [← heq2] at hstr
    rcases List.mem_append.mp hstr with hstr | hstr
    · obtain ⟨parts, hparts, p, hp, hconv⟩ := colsAux_str headers 0 k0 col0 s hc0 hstr
      obtain ⟨line, hline, hlp⟩ :=
        List.mem_map.mp (List.mem_filter.mp hparts).1
      rw [← hlp] at hp
      obtain ⟨hpline, hpbar⟩ := lineParts_mem hp
      have hs1 : s = pyStrip p := by
        rw [cleanAndConvert_str hconv, List.filter_eq_self.mpr]
        intro a ha
        simp only [decide_eq_true_eq]
        intro haeq
        exact hpbar (haeq ▸ ha)
      have hs2 : occurs s p = true := hs1 ▸ pyStrip_occurs p
      have hs3 : occurs s line = true := occurs_trans hs2 hpline
      have hline2 : line ∈ splitOnChar '\n' (pyStrip block) := List.mem_of_mem_drop hline
      have hs4 : occurs line (pyStrip block) = true := splitOnChar_occurs '\n' _ line hline2
      exact occurs_trans (occurs_trans hs3 hs4) (pyStrip_occurs block)
    · exact absurd (List.eq_of_mem_replicate hstr) (by simp)

theorem parseTableToColumns_str {norm : Str} {headers : List Str}
    {sS : Str → Option ℕ} {endP : List Tok} {k : Str} {col : List Cell} {s : Str}
    (hmem : (k, col) ∈ parseTableToColumns norm headers sS endP)
    (hstr : Cell.str s ∈ col) :
    occurs s norm = true := by
  cases hss : sS norm with
  | none =>
    rw [parseTableToColumns, hss] at hmem
    exact absurd hmem (List.not_mem_nil _)
  | some i =>
    have hstep : parseTableToColumns norm headers sS endP =
        parseCore
          (match searchFromIdx endP norm i with
           | some e => (norm.drop i).take (e - i)
           | none => norm.drop i) headers := by
      rw [parseTableToColumns, hss]
    rw [hstep] at hmem
    cases hse : searchFromIdx endP norm i with
    | none =>
      rw [hse] at hmem
      exact occurs_drop (parseCore_str hmem hstr)
    | some e =>
      rw [hse] at hmem
      exact occurs_drop (occurs_take (parseCore_str hmem hstr))

theorem expandUnica_mem {t : ColTable} {k : Str} {col : List Cell} {c : Cell}
    (hmem : (k, col) ∈ expandUnica t) (hc : c ∈ col) :
    ∃ k0 col0, (k0, col0) ∈ t ∧ c ∈ col0 := by
  rw [expandUnica] at hmem
  by_cases hcond : t = [] ∨ lookupCol t ("P1 - P6".toList) = none
  · rw [if_pos hcond] at hmem
    exact absurd hmem (List.not_mem_nil _)
  · rw [if_neg hcond] at hmem
    have hp16 : ∃ vs, lookupCol t ("P1 - P6".toList) = some vs := by
      cases hv : lookupCol t ("P1 - P6".toList) with
      | none => exact absurd (Or.inr hv) hcond
      | some vs => exact ⟨vs, rfl⟩
    obtain ⟨vs, hvs⟩ := hp16
    rw [hvs] at hmem
    cases h1 : lookupCol t ("TARIFA".toList) with
    | none =>
      cases h2 : lookupCol t ("POTENCIA CONTRATADA".toList) with
      | none =>
        rw [h1, h2] at hmem
        simp only [List.nil_append, List.mem_cons, List.not_mem_nil, or_false] at hmem
        rcases hmem with h | h | h | h | h | h <;>
          (injection h with e1 e2; exact ⟨_, _, lookupCol_mem hvs, by have hx := hc; rw [e2] at hx; simpa using hx⟩)
      | some v2 =>
        rw [h1, h2] at hmem
        simp only [List.nil_append, List.cons_append, List.mem_cons, List.not_mem_nil,
          or_false] at hmem
        rcases hmem with h | h | h | h | h | h | h
        · injection h with e1 e2
          exact ⟨_, _, lookupCol_mem h2, by have hx := hc; rw [e2] at hx; simpa using hx⟩
        all_goals
          (injection h with e1 e2; exact ⟨_, _, lookupCol_mem hvs, by have hx := hc; rw [e2] at hx; simpa using hx⟩)
    | some v1 =>
      cases h2 : lookupCol t ("POTENCIA CONTRATADA".toList) with
      | none =>
        rw [h1, h2] at hmem
        simp only [List.nil_append, List.cons_append, List.mem_cons, List.not_mem_nil,
          or_false] at hmem
        rcases hmem with h | h | h | h | h | h | h
        · injection h with e1 e2
          exact ⟨_, _, lookupCol_mem h1, by have hx := hc; rw [e2] at hx; simpa using hx⟩
        all_goals
          (injection h with e1 e2; exact ⟨_, _, lookupCol_mem hvs, by have hx := hc; rw [e2] at hx; simpa using hx⟩)
      | some v2 =>
        rw [h1, h2] at hmem
        simp only [List.cons_append, List.nil_append, List.mem_cons, List.not_mem_nil,
          or_false] at hmem
        rcases hmem with h | h | h | h | h | h | h | h
        · injection h with e1 e2
          exact ⟨_, _, lookupCol_mem h1, by have hx := hc; rw [e2] at hx; simpa using hx⟩
        · injection h with e1 e2
          exact ⟨_, _, lookupCol_mem h2, by have hx := hc; rw [e2] at hx; simpa using hx⟩
        all_goals
          (injection h with e1 e2; exact ⟨_, _, lookupCol_mem hvs, by have hx := hc; rw [e2] at hx; simpa using hx⟩)

theorem fieldAt_str {t : ColTable} {k : Str} {i : ℕ} {s : Str}
    (h : fieldAt t k i = Cell.str s) :
    ∃ col, (k, col) ∈ t ∧ Cell.str s ∈ col := by
  cases hl : lookupCol t k with
  | none =>
    have hnull : fieldAt t k i = Cell.null := by rw [fieldAt, hl]
    rw [hnull] at h
    exact absurd h (by simp)
  | some col =>
    cases hg : col.get? i with
    | none =>
      have hnull : fieldAt t k i = Cell.null := by
        rw [fieldAt, hl]
        show (match col.get? i with | some c => c | none => Cell.null) = Cell.null
        rw [hg]
      rw [hnull] at h
      exact absurd h (by simp)
    | some c =>
      have hval : fieldAt t k i = c := by
        rw [fieldAt, hl]
        show (match col.get? i with | some c => c | none => Cell.null) = c
        rw [hg]
      rw [hval] at h
      exact ⟨col, lookupCol_mem hl, h ▸ List.get?_mem hg⟩

theorem columnsToTarifas_mem {t : ColTable} {row : TariffRow}
    (h : row ∈ columnsToTarifas t) :
    ∃ i, row =
      { tarifa := fieldAt t ("TARIFA".toList) i
        potencia_contratada := fieldAt t ("POTENCIA CONTRATADA".toList) i
        P1 := fieldAt t ("P1".toList) i
        P2 := fieldAt t ("P2".toList) i
        P3 := fieldAt t ("P3".toList) i
        P4 := fieldAt t ("P4".toList) i
        P5 := fieldAt t ("P5".toList) i
        P6 := fieldAt t ("P6".toList) i } := by
  rw [columnsToTarifas] at h
  obtain ⟨i, _, rfl⟩ := List.mem_map.mp h
  exact ⟨i, rfl⟩

set_option maxHeartbeats 2000000 in
/-- C3, amended: every string-valued cell appearing in the returned tarifas
rows is a substring of the normalized (lowercased, accent-stripped) text: the
parser operates on NormalizedText, so cells surface in normalized form. -/
theorem C3_amended_cells_from_normalized (t : Str) (row : TariffRow) (c : Cell) (s : Str)
    (hrow : row ∈ (extract t).termino_de_potencia.tabla_precio_potencia.tarifas ∨
            row ∈ (extract t).termino_de_energia.tabla_precio_clasica_base.tarifas ∨
            row ∈ (extract t).termino_de_energia.tabla_precio_clasica_unica.tarifas)
    (hc : c ∈ rowFields row) (hstr : c = Cell.str s) :
    occurs s (normalizeText t) = true := by
  subst hstr
  rcases hrow with hrow | hrow | hrow
  · have hpot : (extract t).termino_de_potencia.tabla_precio_potencia.tarifas =
        columnsToTarifas (parseTableToColumns (normalizeText t) potenciaHeaders
          (search potenciaStartP) potenciaEndP) := rfl
    rw [hpot] at hrow
    obtain ⟨i, rfl⟩ := columnsToTarifas_mem hrow
    simp only [rowFields, List.mem_cons, List.not_mem_nil, or_false] at hc
    have hex : ∃ k, fieldAt (parseTableToColumns (normalizeText t) potenciaHeaders
        (search potenciaStartP) potenciaEndP) k i = Cell.str s := by
      rcases hc with h | h | h | h | h | h | h | h <;> exact ⟨_, h.symm⟩
    obtain ⟨k, hk⟩ := hex
    obtain ⟨col, hmem, hscol⟩ := fieldAt_str hk
    exact parseTableToColumns_str hmem hscol
  · have hbase : (extract t).termino_de_energia.tabla_precio_clasica_base.tarifas =
        columnsToTarifas (parseTableToColumns (normalizeText t) clasicaBaseHeaders
          (search clasicaBaseStartP) clasicaBaseEndP) := rfl
    rw [hbase] at hrow
    obtain ⟨i, rfl⟩ := columnsToTarifas_mem hrow
    simp only [rowFields, List.mem_cons, List.not_mem_nil, or_false] at hc
    have hex : ∃ k, fieldAt (parseTableToColumns (normalizeText t) clasicaBaseHeaders
        (search clasicaBaseStartP) clasicaBaseEndP) k i = Cell.str s := by
      rcases hc with h | h | h | h | h | h | h | h <;> exact ⟨_, h.symm⟩
    obtain ⟨k, hk⟩ := hex
    obtain ⟨col, hmem, hscol⟩ := fieldAt_str hk
    exact parseTableToColumns_str hmem hscol
  · have huni : (extract t).termino_de_energia.tabla_precio_clasica_unica.tarifas =
        columnsToTarifas (expandUnica
          (match (finditer unicaStartP (normalizeText t)).getLast? with
           | some j => parseTableToColumns ((normalizeText t).drop j) unicaHeaders
               (anchoredSearch unicaStartP) unicaEndP
           | none => [])) := rfl
    rw [huni] at hrow
    cases hlast : (finditer unicaStartP (normalizeText t)).getLast? with
    | none =>
      rw [hlast] at hrow
      exact absurd hrow (List.not_mem_nil _)
    | some j =>
      rw [hlast] at hrow
      obtain ⟨i, rfl⟩ := columnsToTarifas_mem hrow
      simp only [rowFields, List.mem_cons, List.not_mem_nil, or_false] at hc
      have hex : ∃ k, fieldAt (expandUnica (parseTableToColumns ((normalizeText t).drop j)
          unicaHeaders (anchoredSearch unicaStartP) unicaEndP)) k i = Cell.str s := by
        rcases hc with h | h | h | h | h | h | h | h <;> exact ⟨_, h.symm⟩
      obtain ⟨k, hk⟩ := hex
      obtain ⟨col, hmem, hscol⟩ := fieldAt_str hk
      obtain ⟨k0, col0, hmem0, hscol0⟩ := expandUnica_mem hmem hscol
      exact occurs_drop (parseTableToColumns_str hmem0 hscol0)

/-- Witness for the amended C3: the cell "te1" of the scenario document is a
substring of its normalized text. -/
theorem C3_amended_cells_from_normalized_witness :
    occurs ("te1".toList) (normalizeText docPot) = true :=
  C3_amended_cells_from_normalized docPot
    { tarifa := Cell.str ("te1".toList), potencia_contratada := Cell.num (mkQ 345 1),
      P1 := Cell.num (mkQ 12 100), P2 := Cell.num (mkQ 15 100), P3 := Cell.num (mkQ 10 100),
      P4 := Cell.num (mkQ 10 100), P5 := Cell.num (mkQ 15 100), P6 := Cell.num (mkQ 12 100) }
    (Cell.str ("te1".toList)) ("te1".toList)
    (Or.inl (by decide)) (by decide) rfl

theorem repAux_shift (p r : Str) : ∀ (s : Str) (k : ℕ), repAux p r k s = repAux p r 0 (s.drop k) := by
  intro s
  induction s with
  | nil => intro k; cases k <;> rfl
  | cons c s ih =>
    intro k
    cases k with
    | zero => rfl
    | succ k => exact ih k

theorem replaceAll_cons_pos {p : Str} (r : Str) {c : Char} {s : Str}
    (h : pfx p (c :: s) = true) :
    replaceAll p r (c :: s) = r ++ replaceAll p r (s.drop (p.length - 1)) := by
  rw [replaceAll, repAux, if_pos h, repAux_shift]
  rfl

theorem replaceAll_cons_neg {p r : Str} {c : Char} {s : Str}
    (h : pfx p (c :: s) = false) :
    replaceAll p r (c :: s) = c :: replaceAll p r s := by
  rw [replaceAll, repAux, if_neg (by rw [h]; exact Bool.false_ne_true)]
  rfl

theorem mem_replaceAll_aux (p r : Str) :
    ∀ (n : ℕ) (s : Str) (a : Char), s.length ≤ n → a ∈ replaceAll p r s → a ∈ r ∨ a ∈ s := by
  intro n
  induction n with
  | zero =>
    intro s a hlen h
    rw [List.length_eq_zero.mp (Nat.le_zero.mp hlen)] at h ⊢
    exact absurd h (List.not_mem_nil a)
  | succ n ih =>
    intro s a hlen h
    cases s with
    | nil => exact absurd h (List.not_mem_nil a)
    | cons c s =>
      cases hp : pfx p (c :: s) with
      | true =>
        rw [replaceAll_cons_pos r hp] at h
        rcases List.mem_append.mp h with h | h
        · exact Or.inl h
        · rcases ih (s.drop (p.length - 1)) a
            (by rw [List.length_drop]; simp only [List.length_cons] at hlen; omega) h with
            h | h
          · exact Or.inl h
          · exact Or.inr (List.mem_cons_of_mem c (List.mem_of_mem_drop h))
      | false =>
        rw [replaceAll_cons_neg hp] at h
        rcases List.mem_cons.mp h with rfl | h
        · exact Or.inr (List.mem_cons_self _ _)
        · rcases ih s a (Nat.le_of_succ_le_succ (by simpa using hlen)) h with h | h
          · exact Or.inl h
          · exact Or.inr (List.mem_cons_of_mem c h)

theorem mem_replaceAll {p r s : Str} {a : Char} (h : a ∈ replaceAll p r s) :
    a ∈ r ∨ a ∈ s :=
  mem_replaceAll_aux p r s.length s a le_rfl h

theorem mem_collapseWS : ∀ {s : Str} {a : Char}, a ∈ collapseWS s → a = ' ' ∨ a ∈ s := by
  intro s
  induction s with
  | nil => intro a h; exact absurd h (List.not_mem_nil a)
  | cons c s ih =>
    intro a h
    rw [collapseWS] at h
    by_cases h1 : isSpTab c = true
    · rw [if_pos h1] at h
      by_cases h2 : headSpTab s = true
      · rw [if_pos h2] at h
        rcases ih h with h | h
        · exact Or.inl h
        · exact Or.inr (List.mem_cons_of_mem c h)
      · rw [if_neg h2] at h
        rcases List.mem_cons.mp h with rfl | h
        · exact Or.inl rfl
        · rcases ih h with h | h
          · exact Or.inl h
          · exact Or.inr (List.mem_cons_of_mem c h)
    · rw [if_neg h1] at h
      rcases List.mem_cons.mp h with rfl | h
      · exact Or.inr (List.mem_cons_self _ _)
      · rcases ih h with h | h
        · exact Or.inl h
        · exact Or.inr (List.mem_cons_of_mem c h)

theorem no_cr_replaceAll_cr : ∀ (s : Str), '\r' ∉ replaceAll ['\r'] ['\n'] s := by
  intro s
  induction s with
  | nil => exact List.not_mem_nil _
  | cons c s ih =>
    cases hp : pfx ['\r'] (c :: s) with
    | true =>
      rw [replaceAll_cons_pos ['\n'] hp]
      intro h
      rcases List.mem_append.mp h with h | h
      · simp at h
      · exact ih (by simpa using h)
    | false =>
      rw [replaceAll_cons_neg hp]
      intro h
      rcases List.mem_cons.mp h with heq | h
      · rw [pfx, pfx] at hp
        simp at hp
        exact hp heq
      · exact ih h

theorem occurs_head_mem : ∀ {s : Str} {x : Char} {p : Str}, occurs (x :: p) s = true → x ∈ s := by
  intro s
  induction s with
  | nil => intro x p h; rw [occurs, pfx] at h; exact absurd h Bool.false_ne_true
  | cons c s ih =>
    intro x p h
    rw [occurs, Bool.or_eq_true] at h
    rcases h with h | h
    · rw [pfx, Bool.and_eq_true, decide_eq_true_eq] at h
      exact h.1 ▸ List.mem_cons_self _ _
    · exact List.mem_cons_of_mem c (ih h)

theorem not_occurs_replaceAll_id {p r : Str} : ∀ {s : Str}, occurs p s = false →
    replaceAll p r s = s := by
  intro s
  induction s with
  | nil => intro h; rfl
  | cons c s ih =>
    intro h
    rw [occurs, Bool.or_eq_false_iff] at h
    rw [replaceAll_cons_neg h.1, ih h.2]

theorem occurs_tail_pattern {x : Char} {p : Str} : ∀ {s : Str},
    occurs (x :: p) s = true → occurs p s = true := by
  intro s
  induction s with
  | nil => intro h; rw [occurs, pfx] at h; exact absurd h Bool.false_ne_true
  | cons c s ih =>
    intro h
    rw [occurs, Bool.or_eq_true] at h
    rw [occurs, Bool.or_eq_true]
    rcases h with h | h
    · rw [pfx, Bool.and_eq_true] at h
      right
      obtain ⟨v, hv⟩ := pfx_iff.mp h.2
      exact occurs_iff.mpr ⟨[], v, by simpa using hv⟩
    · exact Or.inr (ih h)

theorem replaceAll_self_aux {p : Str} (hp : p ≠ []) :
    ∀ (n : ℕ) (s : Str), s.length ≤ n → replaceAll p p s = s := by
  intro n
  induction n with
  | zero => intro s hlen; rw [List.length_eq_zero.mp (Nat.le_zero.mp hlen)]; rfl
  | succ n ih =>
    intro s hlen
    cases s with
    | nil => rfl
    | cons c s =>
      cases hpf : pfx p (c :: s) with
      | true =>
        obtain ⟨v, hv⟩ := pfx_iff.mp hpf
        have hvd : s.drop (p.length - 1) = v := by
          have h1 : (c :: s).drop p.length = v := by rw [hv, List.drop_left]
          cases p with
          | nil => exact absurd rfl hp
          | cons a p' => simpa using h1
        rw [replaceAll_cons_pos p hpf, hvd, ih v ?_, ← hv]
        have h2 : (c :: s).length = p.length + v.length := by rw [hv]; simp
        have h3 : 1 ≤ p.length := by
          cases p with
          | nil => exact absurd rfl hp
          | cons a p' => simp
        simp only [List.length_cons] at h2 hlen
        omega
      | false =>
        rw [replaceAll_cons_neg hpf,
          ih s (Nat.le_of_succ_le_succ (by simpa using hlen))]

theorem replaceAll_self {p : Str} (hp : p ≠ []) (s : Str) : replaceAll p p s = s :=
  replaceAll_self_aux hp s.length s le_rfl

theorem noRun_cons_iff {c : Char} {s : Str} :
    noRun (c :: s) = true ↔ c ≠ '\t' ∧ okPair c s = true ∧ noRun s = true := by
  rw [noRun]
  simp [Bool.and_eq_true, bne_iff_ne, and_assoc]

theorem okPair_of_ne_space {c : Char} (h : c ≠ ' ') : ∀ (s : Str), okPair c s = true := by
  intro s
  cases s with
  | nil => rfl
  | cons d s => simp [okPair, h]

theorem okPair_head {c : Char} {X : Str}
    (h : ∀ d, X.head? = some d → ¬(c = ' ' ∧ d = ' ')) : okPair c X = true := by
  cases X with
  | nil => rfl
  | cons d X =>
    have := h d rfl
    simp only [okPair, Bool.not_eq_true']
    rw [Bool.and_eq_false_iff]
    by_cases hc : c = ' '
    · refine Or.inr ?_
      have hd : d ≠ ' ' := fun hd => this ⟨hc, hd⟩
      simp [hd]
    · exact Or.inl (by simp [hc])

theorem noRun_tail {c : Char} {s : Str} (h : noRun (c :: s) = true) : noRun s = true :=
  (noRun_cons_iff.mp h).2.2

theorem noRun_head_ne_space {s : Str} (h : noRun (' ' :: s) = true) :
    ∀ d, s.head? = some d → d ≠ ' ' := by
  intro d hd
  obtain ⟨_, hok, _⟩ := noRun_cons_iff.mp h
  cases s with
  | nil => exact absurd hd (by simp)
  | cons e s =>
    injection hd with hd
    subst hd
    simp only [okPair, Bool.not_eq_true'] at hok
    rw [Bool.and_eq_false_iff] at hok
    rcases hok with hok | hok
    · simp at hok
    · simpa using hok

theorem noRun_drop : ∀ (s : Str) (n : ℕ), noRun s = true → noRun (s.drop n) = true := by
  intro s
  induction s with
  | nil => intro n h; simpa using h
  | cons c s ih =>
    intro n h
    cases n with
    | zero => exact h
    | succ n => exact ih n (noRun_tail h)

theorem collapseWS_noRun : ∀ (s : Str), noRun (collapseWS s) = true := by
  intro s
  induction s with
  | nil => rfl
  | cons c s ih =>
    rw [collapseWS]
    by_cases h1 : isSpTab c = true
    · rw [if_pos h1]
      by_cases h2 : headSpTab s = true
      · rw [if_pos h2]; exact ih
      · rw [if_neg h2]
        refine noRun_cons_iff.mpr ⟨by decide, ?_, ih⟩
        refine okPair_head ?_
        intro d hd hpair
        cases s with
        | nil => simp [collapseWS] at hd
        | cons e s' =>
          have he : isSpTab e = false := by
            simp only [headSpTab] at h2
            exact Bool.not_eq_true _ ▸ h2
          rw [collapseWS, if_neg (by rw [he]; exact Bool.false_ne_true)] at hd
          injection hd with hd
          rw [isSpTab] at he
          simp only [decide_eq_false_iff_not, not_or] at he
          exact he.1 (hd ▸ hpair.2)
    · rw [if_neg h1]
      simp only [isSpTab, decide_eq_true_eq, not_or] at h1
      exact noRun_cons_iff.mpr ⟨h1.2, okPair_of_ne_space h1.1 _, ih⟩

theorem collapseWS_eq_self : ∀ {s : Str}, noRun s = true → collapseWS s = s := by
  intro s
  induction s with
  | nil => intro h; rfl
  | cons c s ih =>
    intro h
    obtain ⟨hc, hok, hrest⟩ := noRun_cons_iff.mp h
    rw [collapseWS]
    by_cases h1 : isSpTab c = true
    · have hcsp : c = ' ' := by
        rw [isSpTab] at h1
        simp only [decide_eq_true_eq] at h1
        rcases h1 with h1 | h1
        · exact h1
        · exact absurd h1 hc
      have h2 : headSpTab s = false := by
        cases s with
        | nil => rfl
        | cons d s' =>
          have hd1 : d ≠ ' ' := noRun_head_ne_space (hcsp ▸ h) d
            (show (d :: s').head? = some d from rfl)
          have hd2 : d ≠ '\t' := (noRun_cons_iff.mp hrest).1
          simp [headSpTab, isSpTab, hd1, hd2]
      rw [if_pos h1, if_neg (by rw [h2]; exact Bool.false_ne_true), ih hrest, hcsp]
    · rw [if_neg h1, ih hrest]

theorem noRun_append_of {r : Str} (hr : ∀ a ∈ r, a ≠ ' ' ∧ a ≠ '\t') :
    ∀ {X : Str}, noRun X = true → noRun (r ++ X) = true := by
  induction r with
  | nil => intro X h; simpa using h
  | cons a r' ih =>
    intro X h
    have ha := hr a (List.mem_cons_self _ _)
    rw [List.cons_append]
    exact noRun_cons_iff.mpr
      ⟨ha.2, okPair_of_ne_space ha.1 _, ih (fun b hb => hr b (List.mem_cons_of_mem a hb)) h⟩

theorem head_ne_space_replaceAll {p r : Str} (hrne : r ≠ []) (hr : ∀ a ∈ r, a ≠ ' ')
    {s : Str} (hs : ∀ d, s.head? = some d → d ≠ ' ') :
    ∀ d, (replaceAll p r s).head? = some d → d ≠ ' ' := by
  intro d hd
  cases s with
  | nil => simp [replaceAll, repAux] at hd
  | cons c s =>
    cases hp : pfx p (c :: s) with
    | true =>
      rw [replaceAll_cons_pos r hp] at hd
      cases r with
      | nil => exact absurd rfl hrne
      | cons a r' =>
        rw [List.cons_append] at hd
        injection hd with hd
        exact hd ▸ hr a (List.mem_cons_self _ _)
    | false =>
      rw [replaceAll_cons_neg hp] at hd
      injection hd with hd
      exact hd ▸ hs c rfl

theorem noRun_replaceAll {p r : Str} (hr : ∀ a ∈ r, a ≠ ' ' ∧ a ≠ '\t') (hrne : r ≠ []) :
    ∀ (n : ℕ) (s : Str), s.length ≤ n → noRun s = true →
      noRun (replaceAll p r s) = true := by
  intro n
  induction n with
  | zero => intro s hlen _; rw [List.length_eq_zero.mp (Nat.le_zero.mp hlen)]; rfl
  | succ n ih =>
    intro s hlen h
    cases s with
    | nil => rfl
    | cons c s =>
      cases hp : pfx p (c :: s) with
      | true =>
        rw [replaceAll_cons_pos r hp]
        refine noRun_append_of hr (ih (s.drop (p.length - 1)) ?_
          (noRun_drop s _ (noRun_tail h)))
        rw [List.length_drop]
        simp only [List.length_cons] at hlen
        omega
      | false =>
        rw [replaceAll_cons_neg hp]
        obtain ⟨hc, hok, hrest⟩ := noRun_cons_iff.mp h
        refine noRun_cons_iff.mpr ⟨hc, ?_,
          ih s (by simp only [List.length_cons] at hlen; omega) hrest⟩
        by_cases hcs : c = ' '
        · subst hcs
          refine okPair_head ?_
          intro d hd hpair
          exact head_ne_space_replaceAll hrne (fun a ha => (hr a ha).1)
            (noRun_head_ne_space h) d hd hpair.2
        · exact okPair_of_ne_space hcs _

theorem not_occurs_drop {p s : Str} {n : ℕ} (h : occurs p s = false) :
    occurs p (s.drop n) = false := by
  cases ho : occurs p (s.drop n) with
  | false => rfl
  | true => rw [occurs_drop ho] at h; exact Bool.noConfusion h

theorem kill_replace_aux {a b : Char} (ha : a ≠ ' ') (hb : b ≠ ' ') (hab : a ≠ b) :
    ∀ (n : ℕ) (s : Str), s.length ≤ n →
      occurs [a, ' ', b] (replaceAll [a, ' ', b] [a, b] s) = false := by
  intro n
  induction n with
  | zero => intro s hlen; rw [List.length_eq_zero.mp (Nat.le_zero.mp hlen)]; rfl
  | succ n ih =>
    intro s hlen
    cases s with
    | nil => rfl
    | cons c s =>
      cases hp : pfx [a, ' ', b] (c :: s) with
      | true =>
        obtain ⟨v, hv⟩ := pfx_iff.mp hp
        have hdrop : s.drop 2 = v := by
          have h3 := congrArg (List.drop 3) hv
          simpa using h3
        have hlv : v.length + 3 = s.length + 1 := by
          have := congrArg List.length hv
          simp at this
          omega
        rw [replaceAll_cons_pos _ hp,
          show (([a, ' ', b] : Str).length - 1) = 2 from rfl, hdrop]
        have hT := ih v (by simp only [List.length_cons] at hlen; omega)
        rw [List.cons_append, List.cons_append, List.nil_append, occurs, occurs, hT]
        simp only [pfx, Bool.or_false, Bool.or_eq_false_iff, Bool.and_eq_false_iff]
        constructor
        · right
          left
          simp [Ne.symm hb]
        · left
          simp [hab]
      | false =>
        rw [replaceAll_cons_neg hp]
        have hT := ih s (by simp only [List.length_cons] at hlen; omega)
        rw [occurs, hT, Bool.or_false]
        by_cases hac : a = c
        · subst hac
          cases s with
          | nil => simp [pfx, replaceAll, repAux]
          | cons d s' =>
            cases hp2 : pfx [a, ' ', b] (d :: s') with
            | true =>
              rw [replaceAll_cons_pos _ hp2]
              simp [pfx, Ne.symm ha]
            | false =>
              rw [replaceAll_cons_neg hp2]
              by_cases hd : ' ' = d
              · subst hd
                cases s' with
                | nil => simp [pfx, replaceAll, repAux]
                | cons e s'' =>
                  cases hp3 : pfx [a, ' ', b] (e :: s'') with
                  | true =>
                    rw [replaceAll_cons_pos _ hp3]
                    simp [pfx, Ne.symm hab]
                  | false =>
                    rw [replaceAll_cons_neg hp3]
                    by_cases he : b = e
                    · rw [← he] at hp
                      simp [pfx] at hp
                    · simp [pfx, he]
              · simp [pfx, hd]
        · simp [pfx, hac]

theorem kill_replace {a b : Char} (ha : a ≠ ' ') (hb : b ≠ ' ') (hab : a ≠ b) (s : Str) :
    occurs [a, ' ', b] (replaceAll [a, ' ', b] [a, b] s) = false :=
  kill_replace_aux ha hb hab s.length s le_rfl

theorem preserve_absence_aux {a b x y : Char} (hax : a ≠ x) (hay : a ≠ y)
    (hxs : x ≠ ' ') (hbx : b ≠ x) :
    ∀ (n : ℕ) (s : Str), s.length ≤ n → occurs [a, ' ', b] s = false →
      occurs [a, ' ', b] (replaceAll [x, ' ', y] [x, y] s) = false := by
  intro n
  induction n with
  | zero => intro s hlen _; rw [List.length_eq_zero.mp (Nat.le_zero.mp hlen)]; rfl
  | succ n ih =>
    intro s hlen habs
    cases s with
    | nil => rfl
    | cons c s =>
      rw [occurs, Bool.or_eq_false_iff] at habs
      cases hp : pfx [x, ' ', y] (c :: s) with
      | true =>
        obtain ⟨v, hv⟩ := pfx_iff.mp hp
        have hdrop : s.drop 2 = v := by
          have h3 := congrArg (List.drop 3) hv
          simpa using h3
        rw [replaceAll_cons_pos _ hp,
          show (([x, ' ', y] : Str).length - 1) = 2 from rfl, hdrop]
        have hvabs : occurs [a, ' ', b] v = false := by
          rw [← hdrop]
          exact not_occurs_drop habs.2
        have hT := ih v (by
          have := congrArg List.length hv
          simp at this
          simp only [List.length_cons] at hlen
          omega) hvabs
        rw [List.cons_append, List.cons_append, List.nil_append, occurs, occurs, hT]
        simp [pfx, hax, hay]
      | false =>
        rw [replaceAll_cons_neg hp]
        have hT := ih s (by simp only [List.length_cons] at hlen; omega) habs.2
        rw [occurs, hT, Bool.or_false]
        by_cases hac : a = c
        · subst hac
          cases s with
          | nil => simp [pfx, replaceAll, repAux]
          | cons d s' =>
            cases hp2 : pfx [x, ' ', y] (d :: s') with
            | true =>
              rw [replaceAll_cons_pos _ hp2]
              simp [pfx, Ne.symm hxs]
            | false =>
              rw [replaceAll_cons_neg hp2]
              by_cases hd : ' ' = d
              · subst hd
                cases s' with
                | nil => simp [pfx, replaceAll, repAux]
                | cons e s'' =>
                  cases hp3 : pfx [x, ' ', y] (e :: s'') with
                  | true =>
                    rw [replaceAll_cons_pos _ hp3]
                    simp [pfx, hbx]
                  | false =>
                    rw [replaceAll_cons_neg hp3]
                    by_cases he : b = e
                    · rw [← he] at habs
                      simp [pfx] at habs
                    · simp [pfx, he]
              · simp [pfx, hd]
        · simp [pfx, hac]

theorem preserve_absence {a b x y : Char} (hax : a ≠ x) (hay : a ≠ y)
    (hxs : x ≠ ' ') (hbx : b ≠ x) (s : Str) (h : occurs [a, ' ', b] s = false) :
    occurs [a, ' ', b] (replaceAll [x, ' ', y] [x, y] s) = false :=
  preserve_absence_aux hax hay hxs hbx s.length s le_rfl h

theorem lookup_char_mem {α : Type} : ∀ {tbl : List (Char × α)} {k : Char} {v : α},
    List.lookup k tbl = some v → (k, v) ∈ tbl := by
  intro tbl
  induction tbl with
  | nil => intro k v h; simp [List.lookup] at h
  | cons kv rest ih =>
    intro k v h
    obtain ⟨a, b⟩ := kv
    rw [List.lookup] at h
    cases hbeq : (k == a) with
    | true =>
      rw [hbeq] at h
      have hk : k = a := eq_of_beq hbeq
      have hv : b = v := by injection h
      rw [hk, hv]
      exact List.mem_cons_self _ _
    | false =>
      rw [hbeq] at h
      exact List.mem_cons_of_mem _ (ih h)

theorem accent_values_good : ∀ pr ∈ accentTable,
    ∀ d ∈ pr.2.filter (fun e => ¬ isCombiningMark e), good (lowerChar d) := by
  decide

theorem lower_values_good : ∀ pr ∈ lowerTable, good pr.2 := by decide

theorem strip_lower_good : ∀ (c d : Char), d ∈ stripOne c → good (lowerChar d) := by
  intro c d hd
  cases hl : List.lookup c accentTable with
  | some l =>
    have hstep : stripOne c = l.filter (fun e => ¬ isCombiningMark e) := by
      rw [stripOne, decompChar, hl]
    rw [hstep] at hd
    exact accent_values_good (c, l) (lookup_char_mem hl) d hd
  | none =>
    by_cases hcomb : isCombiningMark c = true
    · have hnone : stripOne c = [] := by
        rw [stripOne, decompChar, hl]
        simp [hcomb]
      rw [hnone] at hd
      exact absurd hd (List.not_mem_nil d)
    · have hone : stripOne c = [c] := by
        rw [stripOne, decompChar, hl]
        simp [hcomb]
      rw [hone] at hd
      rw [List.mem_singleton] at hd
      rw [hd]
      cases hl2 : List.lookup c lowerTable with
      | some v =>
        have hlc : lowerChar c = v := by rw [lowerChar, hl2]; rfl
        rw [hlc]
        exact lower_values_good (c, v) (lookup_char_mem hl2)
      | none =>
        have hlc : lowerChar c = c := by rw [lowerChar, hl2]; rfl
        rw [hlc]
        exact ⟨hone, hlc⟩


theorem stripAccents_flatMap (s : Str) : stripAccents s = s.flatMap stripOne := by
  induction s with
  | nil => rfl
  | cons c s ih =>
    rw [stripAccents, List.flatMap_cons, List.filter_append, List.flatMap_cons]
    rw [stripAccents] at ih
    rw [ih]
    rfl

theorem stripAccents_eq_self {s : Str} (h : ∀ c ∈ s, stripOne c = [c]) :
    stripAccents s = s := by
  rw [stripAccents_flatMap]
  induction s with
  | nil => rfl
  | cons c s ih =>
    rw [List.flatMap_cons, h c (List.mem_cons_self _ _),
      ih (fun d hd => h d (List.mem_cons_of_mem c hd))]
    rfl

theorem map_lower_eq_self {s : Str} (h : ∀ c ∈ s, lowerChar c = c) :
    s.map lowerChar = s := by
  induction s with
  | nil => rfl
  | cons c s ih =>
    rw [List.map_cons, h c (List.mem_cons_self _ _),
      ih (fun d hd => h d (List.mem_cons_of_mem c hd))]

theorem normalizeText_chars (t : Str) :
    ∀ c ∈ normalizeText t, good c ∧ c ≠ '\r' := by
  intro c hc
  rw [normalizeText] at hc
  rcases mem_collapseWS hc with rfl | hc
  · exact ⟨by decide, by decide⟩
  rcases mem_replaceAll hc with hr | hc
  · simp at hr
    rcases hr with rfl | rfl | rfl <;> exact ⟨by decide, by decide⟩
  rcases mem_replaceAll hc with hr | hc
  · simp at hr
    rcases hr with rfl | rfl <;> exact ⟨by decide, by decide⟩
  rcases mem_replaceAll hc with hr | hc
  · simp at hr
    rcases hr with rfl | rfl | rfl <;> exact ⟨by decide, by decide⟩
  rcases mem_replaceAll hc with hr | hc
  · simp at hr
    rcases hr with rfl | rfl <;> exact ⟨by decide, by decide⟩
  have hnotcr : c ≠ '\r' := fun hcr => no_cr_replaceAll_cr _ (hcr ▸ hc)
  refine ⟨?_, hnotcr⟩
  rcases mem_replaceAll hc with hr | hc
  · simp at hr
    subst hr
    decide
  rcases mem_replaceAll hc with hr | hc
  · simp at hr
    subst hr
    decide
  obtain ⟨d, hd, rfl⟩ := List.mem_map.mp hc
  rw [stripAccents_flatMap] at hd
  obtain ⟨e, he, hde⟩ := List.mem_flatMap.mp hd
  exact strip_lower_good e d hde

theorem not_occurs_of_no_cr {y : Str} (hg : ∀ c ∈ y, good c ∧ c ≠ '\r') :
    occurs ['\r', '\n'] y = false ∧ occurs ['\r'] y = false := by
  constructor
  · cases ho : occurs ['\r', '\n'] y with
    | false => rfl
    | true => exact absurd rfl (hg '\r' (occurs_head_mem ho)).2
  · cases ho : occurs ['\r'] y with
    | false => rfl
    | true => exact absurd rfl (hg '\r' (occurs_head_mem ho)).2

theorem not_occurs_ceuro {w : Str} (h : occurs ['€', ' ', '/'] w = false) :
    occurs ['c', '€', ' ', '/'] w = false := by
  cases ho : occurs ['c', '€', ' ', '/'] w with
  | false => rfl
  | true => rw [occurs_tail_pattern ho] at h; exact Bool.noConfusion h

theorem normalize_of_stable {y : Str} (hg : ∀ c ∈ y, good c ∧ c ≠ '\r')
    (hn : noRun y = true) :
    normalizeText y =
      replaceAll ['k', ' ', 'w'] ['k', 'w'] (replaceAll ['€', ' ', '/'] ['€', '/'] y) := by
  have hstrip : stripAccents y = y := stripAccents_eq_self (fun c hc => (hg c hc).1.1)
  have hlow : y.map lowerChar = y := map_lower_eq_self (fun c hc => (hg c hc).1.2)
  obtain ⟨hnocr1, hnocr2⟩ := not_occurs_of_no_cr hg
  have hkill : occurs ['€', ' ', '/'] (replaceAll ['€', ' ', '/'] ['€', '/'] y) = false :=
    kill_replace (by decide) (by decide) (by decide) y
  have hceuro : occurs ['c', '€', ' ', '/'] (replaceAll ['€', ' ', '/'] ['€', '/'] y) = false :=
    not_occurs_ceuro hkill
  have hnr1 : noRun (replaceAll ['€', ' ', '/'] ['€', '/'] y) = true :=
    noRun_replaceAll (by decide) (by decide) _ _ le_rfl hn
  have hnr3 : noRun (replaceAll ['k', ' ', 'w'] ['k', 'w']
      (replaceAll ['€', ' ', '/'] ['€', '/'] y)) = true :=
    noRun_replaceAll (by decide) (by decide) _ _ le_rfl hnr1
  rw [normalizeText, hstrip, hlow,
    not_occurs_replaceAll_id hnocr1, not_occurs_replaceAll_id hnocr2,
    not_occurs_replaceAll_id hceuro,
    replaceAll_self (p := ['k', 'w', 'h']) (by decide),
    collapseWS_eq_self hnr3]

theorem normalize_fix_of_stable {y : Str} (hg : ∀ c ∈ y, good c ∧ c ≠ '\r')
    (hn : noRun y = true) :
    normalizeText (replaceAll ['k', ' ', 'w'] ['k', 'w']
        (replaceAll ['€', ' ', '/'] ['€', '/'] y)) =
      replaceAll ['k', ' ', 'w'] ['k', 'w'] (replaceAll ['€', ' ', '/'] ['€', '/'] y) := by
  have hzg : ∀ c ∈ replaceAll ['k', ' ', 'w'] ['k', 'w']
      (replaceAll ['€', ' ', '/'] ['€', '/'] y), good c ∧ c ≠ '\r' := by
    intro c hc
    rcases mem_replaceAll hc with hr | hc
    · simp at hr
      rcases hr with rfl | rfl <;> exact ⟨by decide, by decide⟩
    rcases mem_replaceAll hc with hr | hc
    · simp at hr
      rcases hr with rfl | rfl <;> exact ⟨by decide, by decide⟩
    exact hg c hc
  have hnr1 : noRun (replaceAll ['€', ' ', '/'] ['€', '/'] y) = true :=
    noRun_replaceAll (by decide) (by decide) _ _ le_rfl hn
  have hznr : noRun (replaceAll ['k', ' ', 'w'] ['k', 'w']
      (replaceAll ['€', ' ', '/'] ['€', '/'] y)) = true :=
    noRun_replaceAll (by decide) (by decide) _ _ le_rfl hnr1
  have hstrip := stripAccents_eq_self (fun c hc => (hzg c hc).1.1)
  have hlow := map_lower_eq_self (fun c hc => (hzg c hc).1.2)
  obtain ⟨hnocr1, hnocr2⟩ := not_occurs_of_no_cr hzg
  have habs1 : occurs ['€', ' ', '/'] (replaceAll ['k', ' ', 'w'] ['k', 'w']
      (replaceAll ['€', ' ', '/'] ['€', '/'] y)) = false :=
    preserve_absence (by decide) (by decide) (by decide) (by decide) _
      (kill_replace (by decide) (by decide) (by decide) y)
  have habsc := not_occurs_ceuro habs1
  have habs3 : occurs ['k', ' ', 'w'] (replaceAll ['k', ' ', 'w'] ['k', 'w']
      (replaceAll ['€', ' ', '/'] ['€', '/'] y)) = false :=
    kill_replace (by decide) (by decide) (by decide) _
  rw [normalizeText, hstrip, hlow,
    not_occurs_replaceAll_id hnocr1, not_occurs_replaceAll_id hnocr2,
    not_occurs_replaceAll_id habs1, not_occurs_replaceAll_id habsc,
    not_occurs_replaceAll_id habs3,
    replaceAll_self (p := ['k', 'w', 'h']) (by decide),
    collapseWS_eq_self hznr]

/-- C4, amended: `normalize_text` is not idempotent, but two applications
reach a fixpoint: for every string x, a third application changes nothing. -/
theorem C4_amended_stable_after_two (x : Str) :
    normalizeText (normalizeText (normalizeText x)) =
      normalizeText (normalizeText x) := by
  have hg := normalizeText_chars x
  have hn : noRun (normalizeText x) = true := by
    rw [normalizeText]
    exact collapseWS_noRun _
  rw [normalize_of_stable hg hn]
  exact normalize_fix_of_stable hg hn

/-- Witness for C6 at a document with two unica markers. -/
theorem C6_last_occurrence_witness :
    ∃ j, (finditer unicaStartP (normalizeText docUni)).getLast? = some j ∧
      (∀ i ∈ finditer unicaStartP (normalizeText docUni), i ≤ j) ∧
      (extract docUni).termino_de_energia.tabla_precio_clasica_unica.tarifas =
        columnsToTarifas (expandUnica (parseTableToColumns
          ((normalizeText docUni).drop j) unicaHeaders
          (anchoredSearch unicaStartP) unicaEndP)) :=
  C6_last_occurrence docUni (by decide)

end Docling
